import Mathlib

/-
  Shallow embedding of gdfmm (src/src/gdfmm.cc), the guided fast-marching
  depth-inpainting library.

  Modelling conventions:
  * cv::Mat single-channel float images become total functions `Int → Int → ℚ`
    accessed as `D y x` (the source accesses `at<float>(y, x)`); all reads the
    source performs are bounds-guarded, so out-of-range values are irrelevant.
  * 3-channel 8-bit images become `Int → Int → Fin 3 → Int`.
  * C++ `float` arithmetic is embedded as exact rational arithmetic; decimal
    literals such as 1e-6 are taken at face value.
  * The ExpCache class and the GDFMM constructor live in a header that is not
    part of the sources; the two caches therefore appear as opaque rational
    valued fields of the `GDFMM` structure, exactly as `PredictDepth` consumes
    them.
  * cv::GaussianBlur / cv::Sobel / Eigen's sqrt and LDLT solver are external
    library routines; their outputs enter the embedding as parameters.
  * `std::priority_queue` pops an entry of maximal priority; the order among
    equal priorities is unspecified by the source, and the embedding fixes the
    leftmost maximal entry.  `while` loops become fuel-indexed recursion; the
    top level entry point supplies a fuel that provably suffices.
-/

namespace gdfmm

/-- Pixel coordinate, as in the source `Point {x, y}`. -/
structure Point where
  x : Int
  y : Int
deriving DecidableEq, Repr

/-- The list of integers lo, lo+1, ..., hi (empty when hi < lo);
used to embed the C++ `for` loops over pixel ranges. -/
def intRange (lo hi : Int) : List Int :=
  (List.range (hi + 1 - lo).toNat).map (fun (i : ℕ) => lo + (i : Int))

/-- The GDFMM object state: the two exponential caches constructed by the
constructor (their construction is in the missing header; `PredictDepth`
only ever reads them), the window size and the blur parameter. -/
structure GDFMM where
  distExpCache : Int → ℚ
  colorExpCache : Int → ℚ
  windowSize : Int
  blurSigma : ℚ

/-- Embedding of `ComputeDepthGradient` (gdfmm.cc lines 39-76): one-sided
finite differences restricted to known (non-zero) in-bounds neighbours,
averaged; 0 when no side is usable. -/
def ComputeDepthGradient (depthImage : Int → Int → ℚ) (rows cols : Int)
    (x y : Int) : ℚ × ℚ :=
  let s1 : ℚ × ℚ :=
    if 0 < x ∧ depthImage y x ≠ 0 ∧ depthImage y (x - 1) ≠ 0 then
      (depthImage y x - depthImage y (x - 1), 1) else (0, 0)
  let s2 : ℚ × ℚ :=
    if x + 1 < cols ∧ depthImage y (x + 1) ≠ 0 ∧ depthImage y x ≠ 0 then
      (s1.1 + (depthImage y (x + 1) - depthImage y x), s1.2 + 1) else s1
  let t1 : ℚ × ℚ :=
    if 0 < y ∧ depthImage y x ≠ 0 ∧ depthImage (y - 1) x ≠ 0 then
      (depthImage y x - depthImage (y - 1) x, 1) else (0, 0)
  let t2 : ℚ × ℚ :=
    if y + 1 < rows ∧ depthImage (y + 1) x ≠ 0 ∧ depthImage y x ≠ 0 then
      (t1.1 + (depthImage (y + 1) x - depthImage y x), t1.2 + 1) else t1
  ((if 0 < s2.2 then s2.1 / s2.2 else 0), (if 0 < t2.2 then t2.1 / t2.2 else 0))

/-- Embedding of `GDFMM::BilateralWeight` (lines 240-253): product of the two
spatial cache reads and the three per-channel color cache reads. -/
def GDFMM.BilateralWeight (g : GDFMM) (p1 p2 : Point)
    (rgbImage : Int → Int → Fin 3 → Int) : ℚ :=
  g.distExpCache (p2.x - p1.x) *
    g.distExpCache (p2.y - p1.y) *
    g.colorExpCache (rgbImage p1.y p1.x 0 - rgbImage p2.y p2.x 0) *
    g.colorExpCache (rgbImage p1.y p1.x 1 - rgbImage p2.y p2.x 1) *
    g.colorExpCache (rgbImage p1.y p1.x 2 - rgbImage p2.y p2.x 2)

/-- The clipped window of `(m, n)` coordinates scanned by both predictors:
n ranges over max(0, y−r) .. min(rows−1, y+r) (outer loop), m over
max(0, x−r) .. min(cols−1, x+r) (inner loop). -/
def windowCoords (rows cols x y r : Int) : List (Int × Int) :=
  (intRange (max 0 (y - r)) (min (rows - 1) (y + r))).flatMap
    (fun n => (intRange (max 0 (x - r)) (min (cols - 1) (x + r))).map
      (fun m => (m, n)))

/-- One window-pixel step of the accumulation loop in `GDFMM::PredictDepth`
(lines 297-311).  The accumulator is (sumValues, sumWeights, count).
The depth-gradient term is computed but, as in the source, not added to the
sums (it is commented out of the accumulation there). -/
def pdAccum (g : GDFMM) (D : Int → Int → ℚ) (rows cols : Int)
    (rgb : Int → Int → Fin 3 → Int) (x y : Int)
    (acc : ℚ × ℚ × ℕ) (mn : Int × Int) : ℚ × ℚ × ℕ :=
  let depth := D mn.2 mn.1
  if depth = 0 then acc
  else
    let weight := max ((1 : ℚ)/1000000)
      (g.BilateralWeight ⟨x, y⟩ ⟨mn.1, mn.2⟩ rgb)
    let _gradientTerm :=
      (ComputeDepthGradient D rows cols mn.1 mn.2).1 * ((x : ℚ) - (mn.1 : ℚ)) +
        (ComputeDepthGradient D rows cols mn.1 mn.2).2 * ((y : ℚ) - (mn.2 : ℚ))
    (acc.1 + weight * depth, acc.2.1 + weight, acc.2.2 + 1)

/-- The (sumValues, sumWeights, count) triple computed by the window loop of
`GDFMM::PredictDepth`. -/
def pdStats (g : GDFMM) (rows cols : Int) (D : Int → Int → ℚ)
    (rgb : Int → Int → Fin 3 → Int) (x y : Int) : ℚ × ℚ × ℕ :=
  (windowCoords rows cols x y (g.windowSize / 2)).foldl
    (pdAccum g D rows cols rgb x y) (0, 0, 0)

/-- Embedding of `GDFMM::PredictDepth` (lines 280-318): bilateral-weighted
mean of the known depths in the clipped window; 0 when at most 3 window
pixels are known. -/
def GDFMM.PredictDepth (g : GDFMM) (rows cols : Int) (D : Int → Int → ℚ)
    (rgb : Int → Int → Fin 3 → Int) (x y : Int) : ℚ :=
  let st := pdStats g rows cols D rgb x y
  if st.2.2 ≤ 3 then 0 else st.1 / st.2.1

/-- The known (non-zero depth) coordinates of the clipped window, in scan
order. -/
def knownCoords (rows cols : Int) (D : Int → Int → ℚ) (x y r : Int) :
    List (Int × Int) :=
  (windowCoords rows cols x y r).filter (fun mn => decide (D mn.2 mn.1 ≠ 0))

/-- The floored bilateral weight used for a window pixel: the weight is
floored at 1e-6 before being accumulated. -/
def flooredWeight (g : GDFMM) (rgb : Int → Int → Fin 3 → Int)
    (x y : Int) (mn : Int × Int) : ℚ :=
  max ((1 : ℚ)/1000000) (g.BilateralWeight ⟨x, y⟩ ⟨mn.1, mn.2⟩ rgb)

/-- The bilateral predictor as the specification words it: 0 when the clipped
window holds fewer than 4 known pixels, otherwise sumValues/sumWeights where
each known pixel contributes its floored bilateral weight to both sums and
the disabled depth-gradient term contributes nothing. -/
def PredictDepthSpec (g : GDFMM) (rows cols : Int) (D : Int → Int → ℚ)
    (rgb : Int → Int → Fin 3 → Int) (x y : Int) : ℚ :=
  let known := knownCoords rows cols D x y (g.windowSize / 2)
  if known.length < 4 then 0
  else
    ((known.map (fun mn => flooredWeight g rgb x y mn * D mn.2 mn.1)).sum) /
      ((known.map (flooredWeight g rgb x y)).sum)

/-! ### Lemmas about the bilateral predictor -/

theorem pdAccum_foldl (g : GDFMM) (D : Int → Int → ℚ) (rows cols : Int)
    (rgb : Int → Int → Fin 3 → Int) (x y : Int) :
    ∀ (l : List (Int × Int)) (a b : ℚ) (c : ℕ),
      l.foldl (pdAccum g D rows cols rgb x y) (a, b, c) =
        (a + ((l.filter (fun mn => decide (D mn.2 mn.1 ≠ 0))).map
            (fun mn => flooredWeight g rgb x y mn * D mn.2 mn.1)).sum,
         b + ((l.filter (fun mn => decide (D mn.2 mn.1 ≠ 0))).map
            (flooredWeight g rgb x y)).sum,
         c + (l.filter (fun mn => decide (D mn.2 mn.1 ≠ 0))).length) := by
  intro l
  induction l with
  | nil => intro a b c; simp
  | cons mn l ih =>
    intro a b c
    by_cases h : D mn.2 mn.1 = 0
    · have hd : decide (D mn.2 mn.1 ≠ 0) = false := by simp [h]
      simp only [List.foldl_cons, pdAccum, if_pos h, List.filter_cons, hd,
        Bool.false_eq_true, if_false]
      rw [ih]
    · have hd : decide (D mn.2 mn.1 ≠ 0) = true := by simp [h]
      simp only [List.foldl_cons, pdAccum, if_neg h, List.filter_cons, hd,
        if_true, List.map_cons, List.sum_cons, List.length_cons]
      rw [ih]
      simp only [Prod.mk.injEq, flooredWeight]
      refine ⟨by ring, by ring, by omega⟩

theorem pdStats_eq (g : GDFMM) (rows cols : Int) (D : Int → Int → ℚ)
    (rgb : Int → Int → Fin 3 → Int) (x y : Int) :
    pdStats g rows cols D rgb x y =
      (((knownCoords rows cols D x y (g.windowSize / 2)).map
          (fun mn => flooredWeight g rgb x y mn * D mn.2 mn.1)).sum,
       ((knownCoords rows cols D x y (g.windowSize / 2)).map
          (flooredWeight g rgb x y)).sum,
       (knownCoords rows cols D x y (g.windowSize / 2)).length) := by
  unfold pdStats knownCoords
  rw [pdAccum_foldl]
  simp

/-- Each floored weight is at least 1e-6. -/
theorem flooredWeight_ge (g : GDFMM) (rgb : Int → Int → Fin 3 → Int)
    (x y : Int) (mn : Int × Int) :
    (1 : ℚ)/1000000 ≤ flooredWeight g rgb x y mn :=
  le_max_left _ _

theorem sum_map_ge_const {α : Type} (l : List α) (f : α → ℚ) (c : ℚ)
    (h : ∀ a ∈ l, c ≤ f a) : (l.length : ℚ) * c ≤ (l.map f).sum := by
  induction l with
  | nil => simp
  | cons a l ih =>
    simp only [List.map_cons, List.sum_cons, List.length_cons]
    have h1 : c ≤ f a := h a (List.mem_cons_self a l)
    have h2 : (l.length : ℚ) * c ≤ (l.map f).sum :=
      ih (fun b hb => h b (List.mem_cons_of_mem a hb))
    push_cast
    nlinarith

theorem sum_map_mul_le {α : Type} (l : List α) (w d : α → ℚ) (b : ℚ)
    (hw : ∀ a ∈ l, 0 ≤ w a) (hd : ∀ a ∈ l, d a ≤ b) :
    (l.map (fun a => w a * d a)).sum ≤ b * (l.map w).sum := by
  induction l with
  | nil => simp
  | cons a l ih =>
    simp only [List.map_cons, List.sum_cons]
    have h1 : w a * d a ≤ b * w a := by
      have := hw a (List.mem_cons_self a l)
      have := hd a (List.mem_cons_self a l)
      nlinarith
    have h2 := ih (fun p hp => hw p (List.mem_cons_of_mem a hp))
      (fun p hp => hd p (List.mem_cons_of_mem a hp))
    nlinarith

theorem sum_map_mul_ge {α : Type} (l : List α) (w d : α → ℚ) (b : ℚ)
    (hw : ∀ a ∈ l, 0 ≤ w a) (hd : ∀ a ∈ l, b ≤ d a) :
    b * (l.map w).sum ≤ (l.map (fun a => w a * d a)).sum := by
  induction l with
  | nil => simp
  | cons a l ih =>
    simp only [List.map_cons, List.sum_cons]
    have h1 : b * w a ≤ w a * d a := by
      have := hw a (List.mem_cons_self a l)
      have := hd a (List.mem_cons_self a l)
      nlinarith
    have h2 := ih (fun p hp => hw p (List.mem_cons_of_mem a hp))
      (fun p hp => hd p (List.mem_cons_of_mem a hp))
    nlinarith

/-- C4 — The bilateral predictor equals its specification: 0 when the clipped
window holds fewer than 4 known (non-zero) depth pixels; otherwise
sumValues/sumWeights with every bilateral weight floored at 1e−6 before being
accumulated into both sums and the disabled depth-gradient term contributing
nothing. -/
theorem claim_C4 (g : GDFMM) (rows cols : Int) (D : Int → Int → ℚ)
    (rgb : Int → Int → Fin 3 → Int) (x y : Int) :
    g.PredictDepth rows cols D rgb x y = PredictDepthSpec g rows cols D rgb x y := by
  unfold GDFMM.PredictDepth PredictDepthSpec
  rw [pdStats_eq]
  set known := knownCoords rows cols D x y (g.windowSize / 2) with hk
  by_cases hc : known.length ≤ 3
  · have hc4 : known.length < 4 := by omega
    simp [hc, hc4]
  · have hc4 : ¬ (known.length < 4) := by omega
    simp [hc, hc4]

/-- C10 — When the success branch is taken (at least 4 known pixels in the
window), the divisor sumWeights is at least 4·1e−6, hence strictly positive;
the division is well-defined and the returned mean lies between any lower
and any upper bound of the known depths in the window (in particular between
their minimum and maximum). -/
theorem claim_C10 (g : GDFMM) (rows cols : Int) (D : Int → Int → ℚ)
    (rgb : Int → Int → Fin 3 → Int) (x y : Int)
    (h4 : 4 ≤ (knownCoords rows cols D x y (g.windowSize / 2)).length) :
    (4 : ℚ)/1000000 ≤
      ((knownCoords rows cols D x y (g.windowSize / 2)).map
        (flooredWeight g rgb x y)).sum ∧
    (0 : ℚ) <
      ((knownCoords rows cols D x y (g.windowSize / 2)).map
        (flooredWeight g rgb x y)).sum ∧
    g.PredictDepth rows cols D rgb x y =
      ((knownCoords rows cols D x y (g.windowSize / 2)).map
        (fun mn => flooredWeight g rgb x y mn * D mn.2 mn.1)).sum /
      ((knownCoords rows cols D x y (g.windowSize / 2)).map
        (flooredWeight g rgb x y)).sum ∧
    (∀ b : ℚ, (∀ mn ∈ knownCoords rows cols D x y (g.windowSize / 2),
        D mn.2 mn.1 ≤ b) → g.PredictDepth rows cols D rgb x y ≤ b) ∧
    (∀ a : ℚ, (∀ mn ∈ knownCoords rows cols D x y (g.windowSize / 2),
        a ≤ D mn.2 mn.1) → a ≤ g.PredictDepth rows cols D rgb x y) := by
  set known := knownCoords rows cols D x y (g.windowSize / 2) with hk
  have hsumW : (4 : ℚ)/1000000 ≤ (known.map (flooredWeight g rgb x y)).sum := by
    have h1 : ((known.length : ℚ)) * ((1 : ℚ)/1000000) ≤
        (known.map (flooredWeight g rgb x y)).sum :=
      sum_map_ge_const _ _ _ (fun mn _ => flooredWeight_ge g rgb x y mn)
    have h2 : (4 : ℚ) ≤ (known.length : ℚ) := by exact_mod_cast h4
    nlinarith
  have hpos : (0 : ℚ) < (known.map (flooredWeight g rgb x y)).sum := by
    nlinarith
  have heq : g.PredictDepth rows cols D rgb x y =
      (known.map (fun mn => flooredWeight g rgb x y mn * D mn.2 mn.1)).sum /
        (known.map (flooredWeight g rgb x y)).sum := by
    unfold GDFMM.PredictDepth
    rw [pdStats_eq]
    have : ¬ (known.length ≤ 3) := by omega
    simp [← hk, this]
  refine ⟨hsumW, hpos, heq, ?_, ?_⟩
  · intro b hb
    rw [heq, div_le_iff₀ hpos]
    have := sum_map_mul_le known (flooredWeight g rgb x y) (fun mn => D mn.2 mn.1)
      b (fun mn hm => le_trans (by norm_num) (flooredWeight_ge g rgb x y mn)) hb
    linarith
  · intro a ha
    rw [heq, le_div_iff₀ hpos]
    have := sum_map_mul_ge known (flooredWeight g rgb x y) (fun mn => D mn.2 mn.1)
      a (fun mn hm => le_trans (by norm_num) (flooredWeight_ge g rgb x y mn)) ha
    linarith

/-! ### Speed function -/

/-- The per-channel squared gradient strength field built by `InPaintBase`
(lines 148-156): for each pixel and channel, Gx² + Gy², where Gx and Gy are
the Sobel derivative fields (produced by external OpenCV calls and hence
parameters of the embedding). -/
def gradientStrength (gxF gyF : Int → Int → Fin 3 → ℚ) :
    Int → Int → Fin 3 → ℚ :=
  fun y x c => gxF y x c * gxF y x c + gyF y x c * gyF y x c

/-- Embedding of `ComputeSpeed` (lines 458-466):
−1 / (1 + s_r + s_g + s_b) at the given position. -/
def ComputeSpeed (strength : Int → Int → Fin 3 → ℚ) (position : Point) : ℚ :=
  -1 / (1 + strength position.y position.x 0 + strength position.y position.x 1 +
    strength position.y position.x 2)

/-- Range of the speed function over squared-gradient strength fields:
always in [−1, 0), with −1 attained exactly at zero gradient. -/
theorem ComputeSpeed_range (gxF gyF : Int → Int → Fin 3 → ℚ) (p : Point) :
    -1 ≤ ComputeSpeed (gradientStrength gxF gyF) p ∧
    ComputeSpeed (gradientStrength gxF gyF) p < 0 ∧
    (ComputeSpeed (gradientStrength gxF gyF) p = -1 ↔
      ∀ c : Fin 3, gradientStrength gxF gyF p.y p.x c = 0) := by
  have hc : ∀ c : Fin 3, 0 ≤ gradientStrength gxF gyF p.y p.x c := fun c =>
    add_nonneg (mul_self_nonneg _) (mul_self_nonneg _)
  have h0 := hc 0
  have h1 := hc 1
  have h2 := hc 2
  have hden : 0 < 1 + gradientStrength gxF gyF p.y p.x 0 +
      gradientStrength gxF gyF p.y p.x 1 + gradientStrength gxF gyF p.y p.x 2 := by
    linarith
  have hspeed : ComputeSpeed (gradientStrength gxF gyF) p =
      -1 / (1 + gradientStrength gxF gyF p.y p.x 0 +
        gradientStrength gxF gyF p.y p.x 1 + gradientStrength gxF gyF p.y p.x 2) := rfl
  refine ⟨?_, ?_, ?_⟩
  · rw [hspeed, neg_div, neg_le_neg_iff, div_le_one hden]
    linarith
  · rw [hspeed]
    exact div_neg_of_neg_of_pos (by norm_num) hden
  · rw [hspeed]
    constructor
    · intro h
      rw [div_eq_iff (ne_of_gt hden)] at h
      have habc : gradientStrength gxF gyF p.y p.x 0 +
          gradientStrength gxF gyF p.y p.x 1 +
          gradientStrength gxF gyF p.y p.x 2 = 0 := by linarith
      intro cc
      have e0 : gradientStrength gxF gyF p.y p.x 0 = 0 := by linarith
      have e1 : gradientStrength gxF gyF p.y p.x 1 = 0 := by linarith
      have e2 : gradientStrength gxF gyF p.y p.x 2 = 0 := by linarith
      rcases cc with ⟨v, hv⟩
      interval_cases v
      · exact e0
      · exact e1
      · exact e2
    · intro h
      rw [h 0, h 1, h 2]
      norm_num

/-- C3 (amended) — For gradient-strength fields built from squared Sobel
derivatives, the speed lies in the half-open interval [−1, 0): it is always
at least −1 and strictly negative, and it equals −1 exactly when all three
squared-gradient components at the pixel are zero. -/
theorem claim_C3_amended (gxF gyF : Int → Int → Fin 3 → ℚ) (p : Point) :
    -1 ≤ ComputeSpeed (gradientStrength gxF gyF) p ∧
    ComputeSpeed (gradientStrength gxF gyF) p < 0 ∧
    (ComputeSpeed (gradientStrength gxF gyF) p = -1 ↔
      ∀ c : Fin 3, gradientStrength gxF gyF p.y p.x c = 0) :=
  ComputeSpeed_range gxF gyF p

/-- C3 (counterexample) — At a pixel whose three squared-gradient components
are all zero (zero Sobel derivatives), `ComputeSpeed` returns exactly −1,
which is not strictly inside the open interval (−1, 0) as the claim states. -/
theorem claim_C3_counterexample :
    ComputeSpeed (gradientStrength (fun _ _ _ => 0) (fun _ _ _ => 0)) ⟨0, 0⟩ = -1 ∧
    ¬ (-1 < ComputeSpeed (gradientStrength (fun _ _ _ => 0) (fun _ _ _ => 0)) ⟨0, 0⟩) := by
  constructor
  · unfold ComputeSpeed gradientStrength
    norm_num
  · intro h
    rw [show ComputeSpeed (gradientStrength (fun _ _ _ => 0) (fun _ _ _ => 0)) ⟨0, 0⟩
        = -1 from by unfold ComputeSpeed gradientStrength; norm_num] at h
    exact lt_irrefl _ h

/-! ### The regularized least-squares predictor (PredictDepth2, lines 327-456)

The Eigen pipeline is embedded stage by stage.  Eigen's coefficient-wise
`sqrt` and the LDLT solve are external library routines and enter as the
parameters `sqrtQ` and `ldltSolve`. -/

/-- Number of known pixels in the clipped window (lines 345-355). -/
def pd2NumKnown (g : GDFMM) (rows cols : Int) (D : Int → Int → ℚ)
    (x y : Int) : ℕ :=
  (knownCoords rows cols D x y (g.windowSize / 2)).length

/-- A feature row of the matrix X: the three RGB channels of the window
pixel and a fourth component initialized to 0 (lines 374-377). -/
def pd2Row (rgb : Int → Int → Fin 3 → Int) (mn : Int × Int) : Fin 4 → ℚ :=
  fun j => if h : (j : ℕ) < 3 then ((rgb mn.2 mn.1 ⟨j, h⟩ : Int) : ℚ) else 0

/-- The feature matrix X as built row by row over the known window pixels. -/
def pd2X0 (g : GDFMM) (rows cols : Int) (D : Int → Int → ℚ)
    (rgb : Int → Int → Fin 3 → Int) (x y : Int) : List (Fin 4 → ℚ) :=
  (knownCoords rows cols D x y (g.windowSize / 2)).map (pd2Row rgb)

/-- The target vector Y of known depths. -/
def pd2Y0 (g : GDFMM) (rows cols : Int) (D : Int → Int → ℚ)
    (x y : Int) : List ℚ :=
  (knownCoords rows cols D x y (g.windowSize / 2)).map (fun mn => D mn.2 mn.1)

/-- Column means of X (line 385). -/
def pd2mX (g : GDFMM) (rows cols : Int) (D : Int → Int → ℚ)
    (rgb : Int → Int → Fin 3 → Int) (x y : Int) : Fin 4 → ℚ :=
  fun j => ((pd2X0 g rows cols D rgb x y).map (fun r => r j)).sum /
    (pd2NumKnown g rows cols D x y : ℚ)

/-- Mean of Y (line 386). -/
def pd2mY (g : GDFMM) (rows cols : Int) (D : Int → Int → ℚ)
    (x y : Int) : ℚ :=
  (pd2Y0 g rows cols D x y).sum / (pd2NumKnown g rows cols D x y : ℚ)

/-- X after subtracting the column means (line 389). -/
def pd2Xc (g : GDFMM) (rows cols : Int) (D : Int → Int → ℚ)
    (rgb : Int → Int → Fin 3 → Int) (x y : Int) : List (Fin 4 → ℚ) :=
  (pd2X0 g rows cols D rgb x y).map
    (fun r j => r j - pd2mX g rows cols D rgb x y j)

/-- Y after subtracting its mean (line 390). -/
def pd2Yc (g : GDFMM) (rows cols : Int) (D : Int → Int → ℚ)
    (x y : Int) : List ℚ :=
  (pd2Y0 g rows cols D x y).map (fun d => d - pd2mY g rows cols D x y)

/-- The column scale vector σ_X: sqrt of the column mean of squares (line
392), floored at 1e-5 (line 393), with the fourth component then forced to 1
(line 394). -/
def pd2sX (g : GDFMM) (rows cols : Int) (D : Int → Int → ℚ)
    (rgb : Int → Int → Fin 3 → Int) (x y : Int) (sqrtQ : ℚ → ℚ) :
    Fin 4 → ℚ :=
  fun j =>
    if j = 3 then 1
    else max (sqrtQ (((pd2Xc g rows cols D rgb x y).map (fun r => r j * r j)).sum /
        (pd2NumKnown g rows cols D x y : ℚ))) ((1 : ℚ)/100000)

/-- X after the column-3 fill and the row-wise division by σ_X (lines
395-398).  Note the source fills column 3 with the ORIGINAL `constant`
argument: the floor `constant = max(0.00001f, constant)` happens on line 396,
after the fill on line 395, and only affects the test vector. -/
def pd2Xnorm (g : GDFMM) (rows cols : Int) (D : Int → Int → ℚ)
    (rgb : Int → Int → Fin 3 → Int) (x y : Int) (constant : ℚ)
    (sqrtQ : ℚ → ℚ) : List (Fin 4 → ℚ) :=
  (pd2Xc g rows cols D rgb x y).map
    (fun r j => (if j = 3 then constant else r j) /
      pd2sX g rows cols D rgb x y sqrtQ j)

/-- The normalized test vector (lines 417-423): RGB at the query pixel with a
0 fourth component, normalized by (· − μ_X)/σ_X, after which the fourth
component is overwritten with the floored constant max(1e-5, constant). -/
def pd2Test (g : GDFMM) (rows cols : Int) (D : Int → Int → ℚ)
    (rgb : Int → Int → Fin 3 → Int) (x y : Int) (constant : ℚ)
    (sqrtQ : ℚ → ℚ) : Fin 4 → ℚ :=
  fun j =>
    if j = 3 then max ((1 : ℚ)/100000) constant
    else ((if h : (j : ℕ) < 3 then ((rgb y x ⟨j, h⟩ : Int) : ℚ) else 0) -
        pd2mX g rows cols D rgb x y j) / pd2sX g rows cols D rgb x y sqrtQ j

/-- Embedding of `GDFMM::PredictDepth2` (lines 327-456).  Returns 0 when at
most 3 window pixels are known (the `throw` after that `return 0` in the
source is dead code).  Otherwise solves the ridge-regularized normal
equations (XᵀX + εI)β = XᵀY through the external LDLT solver and returns
β·test + μ_Y.  The source asserts the result is not NaN; rational arithmetic
has no NaN, so the assertion has no residue here. -/
def GDFMM.PredictDepth2 (g : GDFMM) (rows cols : Int) (D : Int → Int → ℚ)
    (rgb : Int → Int → Fin 3 → Int) (x y : Int)
    (epsilon constant truncation : ℚ) (sqrtQ : ℚ → ℚ)
    (ldltSolve : (Fin 4 → Fin 4 → ℚ) → (Fin 4 → ℚ) → (Fin 4 → ℚ)) : ℚ :=
  -- `truncation` is reserved: the range clamp that would use it is commented
  -- out in the source (lines 449-453).
  let _ := truncation
  if pd2NumKnown g rows cols D x y ≤ 3 then 0
  else
    let Xn := pd2Xnorm g rows cols D rgb x y constant sqrtQ
    let Yc := pd2Yc g rows cols D x y
    let cov : Fin 4 → Fin 4 → ℚ := fun i j =>
      (Xn.map (fun r => r i * r j)).sum + (if i = j then epsilon else 0)
    let xy : Fin 4 → ℚ := fun j => ((Xn.zip Yc).map (fun rz => rz.1 j * rz.2)).sum
    let beta := ldltSolve cov xy
    (∑ j : Fin 4, beta j * pd2Test g rows cols D rgb x y constant sqrtQ j) +
      pd2mY g rows cols D x y

/-- Shared helper for C7: every row of the normalized feature matrix holds
the original constant k in column 3 (division by the forced σ_X[3] = 1). -/
theorem pd2Xnorm_col3 (g : GDFMM) (rows cols : Int) (D : Int → Int → ℚ)
    (rgb : Int → Int → Fin 3 → Int) (x y : Int) (k : ℚ) (sqrtQ : ℚ → ℚ) :
    ∀ r ∈ pd2Xnorm g rows cols D rgb x y k sqrtQ, r 3 = k := by
  intro r hr
  rcases List.mem_map.mp hr with ⟨rc, _, hrc⟩
  rw [← hrc]
  simp [pd2sX]

/-- C7 (amended) — In the least-squares predictor, after normalization,
σ_X[3] is forced to 1 and column 3 of the normalized feature matrix holds the
ORIGINAL constant k in every row (the floor max(k, 1e−5) is applied to the
`constant` variable only after the column fill), while the test vector's
fourth component is set to max(k, 1e−5). -/
theorem claim_C7_amended (g : GDFMM) (rows cols : Int) (D : Int → Int → ℚ)
    (rgb : Int → Int → Fin 3 → Int) (x y : Int) (k : ℚ) (sqrtQ : ℚ → ℚ)
    (_h4 : 3 < pd2NumKnown g rows cols D x y) :
    pd2sX g rows cols D rgb x y sqrtQ 3 = 1 ∧
    (∀ r ∈ pd2Xnorm g rows cols D rgb x y k sqrtQ, r 3 = k) ∧
    pd2Test g rows cols D rgb x y k sqrtQ 3 = max ((1 : ℚ)/100000) k :=
  ⟨by simp [pd2sX], pd2Xnorm_col3 g rows cols D rgb x y k sqrtQ, by simp [pd2Test]⟩

/-- C7 (counterexample) — With constant k = 0 and a window of 4 known pixels,
every row of the normalized feature matrix has 0 (the original k) in column
3, not max(k, 1e−5) = 1e−5 as the claim states. -/
theorem claim_C7_counterexample :
    ((pd2Xnorm ⟨fun _ => 1, fun _ => 1, 3, 1⟩ 2 2
        (fun _ _ => 5) (fun _ _ _ => 0) 0 0 0 id).map
      (fun r => r 3)) = [0, 0, 0, 0] ∧
    3 < pd2NumKnown ⟨fun _ => 1, fun _ => 1, 3, 1⟩ 2 2
        (fun _ _ => 5) 0 0 ∧
    (0 : ℚ) ≠ max 0 ((1 : ℚ)/100000) := by
  refine ⟨by with_unfolding_all decide, by with_unfolding_all decide, by norm_num⟩

/-! ### The FMM propagation engine (`GDFMM::InPaintBase`, lines 112-238) -/

/-- A narrow-band entry: (priority, position), as in `BandItem`. -/
abbrev BandItem := ℚ × Point

/-- The narrow band.  `std::priority_queue` pops an entry of maximal
priority (comparator `p1.first < p2.first`); the order among equal
priorities is unspecified by the source.  The embedding keeps the entries
in a list and pops the leftmost entry of maximal priority. -/
abbrev Band := List BandItem

/-- Pop an entry of maximal priority (the leftmost among ties), returning it
together with the remaining band; `none` on the empty band. -/
def popMax : Band → Option (BandItem × Band)
  | [] => none
  | e :: es =>
    match popMax es with
    | none => some (e, [])
    | some (m, rest) => if e.1 < m.1 then some (m, e :: rest) else some (e, es)

/-- The 4-neighbour offsets, in source order (line 194-196). -/
def offsets : List Point := [⟨0, 1⟩, ⟨1, 0⟩, ⟨-1, 0⟩, ⟨0, -1⟩]

/-- The context threaded through the propagation loop: the predictor closure
(the `PredictMethod` template parameter), the gradient strength field and
the image dimensions. -/
structure Ctx where
  pred : (Int → Int → ℚ) → Int → Int → ℚ
  strength : Int → Int → Fin 3 → ℚ
  rows : Int
  cols : Int

/-- Write value v at pixel p of the depth image. -/
def updateD (D : Int → Int → ℚ) (p : Point) (v : ℚ) : Int → Int → ℚ :=
  fun yy xx => if yy = p.y ∧ xx = p.x then v else D yy xx

/-- The mid-run fatal error message (lines 220-222). -/
def tooFewMsg : String :=
  "Too few known values. Try densifying your depth image first, or increasing the window size."

/-- Process the 4 neighbours of the popped entry (speed, position) in order
(lines 197-227): skip out-of-bounds neighbours and already-known neighbours;
otherwise predict, write the prediction, and either push the neighbour with
its speed (prediction ≠ 0) or defer — abort when the popped priority is
below −20, else re-enqueue the parent with priority speed − 1. -/
def processNeighbours (c : Ctx) (speed : ℚ) (position : Point) :
    List Point → (Int → Int → ℚ) → Band → Except String ((Int → Int → ℚ) × Band)
  | [], D, band => .ok (D, band)
  | d :: ds, D, band =>
    let neighbour : Point := ⟨position.x + d.x, position.y + d.y⟩
    if ¬ (0 ≤ neighbour.x ∧ 0 ≤ neighbour.y ∧
          neighbour.x < c.cols ∧ neighbour.y < c.rows) then
      processNeighbours c speed position ds D band
    else if D neighbour.y neighbour.x = 0 then
      let prediction := c.pred D neighbour.x neighbour.y
      if prediction ≠ 0 then
        processNeighbours c speed position ds (updateD D neighbour prediction)
          ((ComputeSpeed c.strength neighbour, neighbour) :: band)
      else if speed < -20 then
        .error tooFewMsg
      else
        processNeighbours c speed position ds (updateD D neighbour prediction)
          ((speed - 1, position) :: band)
    else
      processNeighbours c speed position ds D band

/-- Result of the propagation loop over the float image. -/
inductive LoopRes where
  | ok (D : Int → Int → ℚ) : LoopRes
  | err (msg : String) : LoopRes
  | fuelEmpty : LoopRes

/-- The propagation loop (lines 186-228), fuel-indexed: while the band is
nonempty, pop the top entry and process its 4 neighbours. -/
def loop (c : Ctx) : ℕ → (Int → Int → ℚ) → Band → LoopRes
  | 0, _, _ => .fuelEmpty
  | fuel + 1, D, band =>
    match popMax band with
    | none => .ok D
    | some ((speed, position), rest) =>
      match processNeighbours c speed position offsets D rest with
      | .error m => .err m
      | .ok (D2, band2) => loop c fuel D2 band2

/-- All (y, x) coordinates of the image, in row-major scan order. -/
def coordList (rows cols : Int) : List (Int × Int) :=
  (intRange 0 (rows - 1)).flatMap
    (fun yy => (intRange 0 (cols - 1)).map (fun xx => (yy, xx)))

/-- Band initialization (lines 176-183): every known pixel is enqueued with
priority 0. -/
def initBand (rows cols : Int) (D : Int → Int → ℚ) : Band :=
  (coordList rows cols).foldl
    (fun band yx =>
      if D yx.1 yx.2 ≠ 0 then ((0 : ℚ), (⟨yx.2, yx.1⟩ : Point)) :: band else band)
    []

/-! Termination measure for the loop: priorities stay in [−21, 0], so each
band entry weighs 5^(⌈s⌉+22); a deferral replaces weight 5^e by at most
4·5^(e−1), and a fill decreases the count of in-bounds zero pixels, which is
weighted by 4·5^22. -/

/-- Exponent of the measure weight of a band entry of priority s. -/
def eExp (s : ℚ) : ℕ := (⌈s⌉ + 22).toNat

/-- Multiset weight of the band. -/
def potential (band : Band) : ℕ := (band.map (fun e => 5 ^ eExp e.1)).sum

/-- Number of in-bounds unknown pixels. -/
def zerosCount (rows cols : Int) (D : Int → Int → ℚ) : ℕ :=
  (((Finset.Ico 0 rows) ×ˢ (Finset.Ico 0 cols)).filter
    (fun yx => D yx.1 yx.2 = 0)).card

/-- The loop variant: strictly decreases at every non-terminal iteration. -/
def measureFn (rows cols : Int) (D : Int → Int → ℚ) (band : Band) : ℕ :=
  potential band + 4 * 5 ^ 22 * zerosCount rows cols D

/-- cv::saturate_cast<ushort>(cvRound(q)): round half to even, clamp to
[0, 65535]. -/
def cvRound (q : ℚ) : Int :=
  if q - ⌊q⌋ = 1/2 then (if 2 ∣ ⌊q⌋ then ⌊q⌋ else ⌊q⌋ + 1) else round q

/-- Saturating conversion of the rounded value to 16-bit unsigned. -/
def toU16 (q : ℚ) : ℕ := (min 65535 (max 0 (cvRound q))).toNat

/-- The depth input image: a cv::Mat with dimensions, channel count and
integer-valued (16-bit unsigned) pixel data. -/
structure DepthInput where
  rows : Int
  cols : Int
  channels : Int
  data : Int → Int → ℕ

/-- The RGB input image: dimensions, channel count and 8-bit pixel data. -/
structure RgbInput where
  rows : Int
  cols : Int
  channels : Int
  data : Int → Int → Fin 3 → Int

/-- The pre-flight shape-mismatch message (line 119). -/
def sameSizeMsg : String := "Images must have same size."

/-- The CHECK macro message for the depth-channel test (line 123). -/
def depthChannelsMsg : String :=
  "Failed expression: depthImageOriginal.channels() == 1\n"

/-- The CHECK macro message for the rgb-channel test (line 124). -/
def rgbChannelsMsg : String :=
  "Failed expression: rgbImage.channels() == 3\n"

/-- Result of a full inpaint call: the 16-bit output image, an error, or
fuel exhaustion (which `loop_terminates` below rules out for the canonical
fuel). -/
inductive Res where
  | ok (D : Int → Int → ℕ) : Res
  | err (msg : String) : Res
  | fuelEmpty : Res

/-- Convert the loop result to 16-bit output (lines 230-237). -/
def finishRes (output : LoopRes) : Res :=
  match output with
  | .ok D => .ok (fun yy xx => toU16 (D yy xx))
  | .err m => .err m
  | .fuelEmpty => .fuelEmpty

/-- The context built by `InPaintBase` for a given predictor closure and the
Sobel gradient fields. -/
def mkCtx (pred : (Int → Int → ℚ) → Int → Int → ℚ)
    (gxF gyF : Int → Int → Fin 3 → ℚ) (rows cols : Int) : Ctx :=
  ⟨pred, gradientStrength gxF gyF, rows, cols⟩

/-- The float working image: the depth input converted to CV_32F (line 133).
16-bit integers convert to float exactly. -/
def initDepth (dIn : DepthInput) : Int → Int → ℚ :=
  fun yy xx => (dIn.data yy xx : ℚ)

/-- Embedding of `GDFMM::InPaintBase` (lines 112-238): pre-flight size and
channel checks, conversion to float, band initialization, propagation, and
conversion of the result to 16-bit unsigned.  The canonical fuel
measureFn + 1 provably suffices (see `loop_terminates`). -/
def InPaintBase (pred : (Int → Int → ℚ) → Int → Int → ℚ)
    (gxF gyF : Int → Int → Fin 3 → ℚ) (dIn : DepthInput) (rgb : RgbInput) : Res :=
  if rgb.cols ≠ dIn.cols ∨ rgb.rows ≠ dIn.rows then .err sameSizeMsg
  else if ¬ (dIn.channels = 1) then .err depthChannelsMsg
  else if ¬ (rgb.channels = 3) then .err rgbChannelsMsg
  else
    finishRes (loop (mkCtx pred gxF gyF dIn.rows dIn.cols)
      (measureFn dIn.rows dIn.cols (initDepth dIn)
        (initBand dIn.rows dIn.cols (initDepth dIn)) + 1)
      (initDepth dIn) (initBand dIn.rows dIn.cols (initDepth dIn)))

/-- Embedding of `GDFMM::InPaint` (lines 79-90): `InPaintBase` with the
bilateral predictor closure. -/
def GDFMM.InPaint (g : GDFMM) (gxF gyF : Int → Int → Fin 3 → ℚ)
    (dIn : DepthInput) (rgb : RgbInput) : Res :=
  InPaintBase
    (fun D xx yy => g.PredictDepth dIn.rows dIn.cols D rgb.data xx yy)
    gxF gyF dIn rgb

/-! ### Lemmas about the band and the neighbour-processing step -/

theorem popMax_eq_none (band : Band) : popMax band = none → band = [] := by
  cases band with
  | nil => intro; rfl
  | cons e es =>
    intro h
    unfold popMax at h
    cases h' : popMax es with
    | none => rw [h'] at h; simp at h
    | some p =>
      rw [h'] at h
      by_cases hc : e.1 < p.1.1 <;> simp [hc] at h

theorem popMax_perm : ∀ (band : Band) (m : BandItem) (rest : Band),
    popMax band = some (m, rest) → band.Perm (m :: rest) := by
  intro band
  induction band with
  | nil => intro m rest h; simp [popMax] at h
  | cons e es ih =>
    intro m rest h
    unfold popMax at h
    cases h' : popMax es with
    | none =>
      rw [h'] at h
      simp only [Option.some.injEq, Prod.mk.injEq] at h
      rw [popMax_eq_none es h', ← h.1, ← h.2]
    | some p =>
      obtain ⟨m', rest'⟩ := p
      rw [h'] at h
      dsimp only at h
      by_cases hc : e.1 < m'.1
      · rw [if_pos hc] at h
        simp only [Option.some.injEq, Prod.mk.injEq] at h
        have hp := ih m' rest' h'
        rw [← h.1, ← h.2]
        exact (hp.cons e).trans (List.Perm.swap m' e rest')
      · rw [if_neg hc] at h
        simp only [Option.some.injEq, Prod.mk.injEq] at h
        rw [← h.1, ← h.2]

theorem popMax_potential (band : Band) (m : BandItem) (rest : Band)
    (h : popMax band = some (m, rest)) :
    potential band = 5 ^ eExp m.1 + potential rest := by
  have hp := popMax_perm band m rest h
  unfold potential
  rw [(hp.map (fun e => 5 ^ eExp e.1)).sum_eq]
  simp

theorem popMax_mem (band : Band) (m : BandItem) (rest : Band)
    (h : popMax band = some (m, rest)) : m ∈ band :=
  (popMax_perm band m rest h).mem_iff.mpr (List.mem_cons_self m rest)

theorem popMax_cover (band : Band) (m : BandItem) (rest : Band)
    (h : popMax band = some (m, rest)) :
    ∀ e ∈ band, e = m ∨ e ∈ rest := by
  intro e he
  have := (popMax_perm band m rest h).mem_iff.mp he
  rcases List.mem_cons.mp this with h1 | h2
  · exact Or.inl h1
  · exact Or.inr h2

theorem popMax_rest_mem (band : Band) (m : BandItem) (rest : Band)
    (h : popMax band = some (m, rest)) :
    ∀ e ∈ rest, e ∈ band := by
  intro e he
  exact (popMax_perm band m rest h).mem_iff.mpr (List.mem_cons_of_mem m he)

/-- The only error the neighbour-processing step can produce is the
"Too few known values" message. -/
theorem processNeighbours_error (c : Ctx) (s : ℚ) (pos : Point) :
    ∀ (ds : List Point) (D : Int → Int → ℚ) (band : Band) (m : String),
      processNeighbours c s pos ds D band = .error m → m = tooFewMsg := by
  intro ds
  induction ds with
  | nil => intro D band m h; simp [processNeighbours] at h
  | cons d ds ih =>
    intro D band m h
    simp only [processNeighbours] at h
    split at h
    · exact ih _ _ _ h
    · split at h
      · split at h
        · exact ih _ _ _ h
        · split at h
          · simp only [Except.error.injEq] at h
            exact h.symm
          · exact ih _ _ _ h
      · exact ih _ _ _ h

/-- Processing neighbours only pushes entries: the band grows. -/
theorem processNeighbours_band_mono (c : Ctx) (s : ℚ) (pos : Point) :
    ∀ (ds : List Point) (D : Int → Int → ℚ) (band : Band)
      (D2 : Int → Int → ℚ) (band2 : Band),
      processNeighbours c s pos ds D band = .ok (D2, band2) →
      ∀ e ∈ band, e ∈ band2 := by
  intro ds
  induction ds with
  | nil =>
    intro D band D2 band2 h
    simp only [processNeighbours, Except.ok.injEq, Prod.mk.injEq] at h
    rw [← h.2]
    exact fun e he => he
  | cons d ds ih =>
    intro D band D2 band2 h
    simp only [processNeighbours] at h
    split at h
    · exact ih _ _ _ _ h
    · split at h
      · split at h
        · intro e he
          exact ih _ _ _ _ h e (List.mem_cons_of_mem _ he)
        · split at h
          · exact absurd h (by simp)
          · intro e he
            exact ih _ _ _ _ h e (List.mem_cons_of_mem _ he)
      · exact ih _ _ _ _ h

/-- Known (non-zero) pixels are never overwritten by the neighbour step. -/
theorem processNeighbours_preserves (c : Ctx) (s : ℚ) (pos : Point) :
    ∀ (ds : List Point) (D : Int → Int → ℚ) (band : Band)
      (D2 : Int → Int → ℚ) (band2 : Band),
      processNeighbours c s pos ds D band = .ok (D2, band2) →
      ∀ yy xx, D yy xx ≠ 0 → D2 yy xx = D yy xx := by
  intro ds
  induction ds with
  | nil =>
    intro D band D2 band2 h yy xx _
    simp only [processNeighbours, Except.ok.injEq, Prod.mk.injEq] at h
    rw [← h.1]
  | cons d ds ih =>
    intro D band D2 band2 h yy xx hnz
    simp only [processNeighbours] at h
    split at h
    · exact ih _ _ _ _ h yy xx hnz
    · rename_i hin
      split at h
      · rename_i hz
        have hupd : ∀ v, updateD D ⟨pos.x + d.x, pos.y + d.y⟩ v yy xx = D yy xx := by
          intro v
          unfold updateD
          split
          · rename_i heq
            exact absurd hnz (by rw [heq.1, heq.2]; simp [hz])
          · rfl
        split at h
        · have := ih _ _ _ _ h yy xx (by rw [hupd]; exact hnz)
          rw [this, hupd]
        · split at h
          · exact absurd h (by simp)
          · have := ih _ _ _ _ h yy xx (by rw [hupd]; exact hnz)
            rw [this, hupd]
      · exact ih _ _ _ _ h yy xx hnz

/-- Every entry of the resulting band is an old entry, the deferred parent
re-enqueued at priority s − 1, or a successful push at the speed of the
filled neighbour. -/
theorem processNeighbours_new_entries (c : Ctx) (s : ℚ) (pos : Point) :
    ∀ (ds : List Point) (D : Int → Int → ℚ) (band : Band)
      (D2 : Int → Int → ℚ) (band2 : Band),
      processNeighbours c s pos ds D band = .ok (D2, band2) →
      ∀ e ∈ band2, e ∈ band ∨ e = (s - 1, pos) ∨
        ∃ nb : Point, e = (ComputeSpeed c.strength nb, nb) := by
  intro ds
  induction ds with
  | nil =>
    intro D band D2 band2 h e he
    simp only [processNeighbours, Except.ok.injEq, Prod.mk.injEq] at h
    rw [← h.2] at he
    exact Or.inl he
  | cons d ds ih =>
    intro D band D2 band2 h e he
    simp only [processNeighbours] at h
    split at h
    · exact ih _ _ _ _ h e he
    · split at h
      · split at h
        · rcases ih _ _ _ _ h e he with h1 | h2
          · rcases List.mem_cons.mp h1 with h3 | h4
            · exact Or.inr (Or.inr ⟨⟨pos.x + d.x, pos.y + d.y⟩, h3⟩)
            · exact Or.inl h4
          · exact Or.inr h2
        · split at h
          · exact absurd h (by simp)
          · rcases ih _ _ _ _ h e he with h1 | h2
            · rcases List.mem_cons.mp h1 with h3 | h4
              · exact Or.inr (Or.inl h3)
              · exact Or.inl h4
            · exact Or.inr h2
      · exact ih _ _ _ _ h e he

/-- The only error the propagation loop can produce is the "Too few known
values" message. -/
theorem loop_err (c : Ctx) : ∀ (fuel : ℕ) (D : Int → Int → ℚ) (band : Band)
    (m : String), loop c fuel D band = .err m → m = tooFewMsg := by
  intro fuel
  induction fuel with
  | zero => intro D band m h; simp [loop] at h
  | succ n ih =>
    intro D band m h
    rw [loop] at h
    cases hpm : popMax band with
    | none => rw [hpm] at h; simp at h
    | some p =>
      obtain ⟨⟨s, pos⟩, rest⟩ := p
      rw [hpm] at h
      dsimp only at h
      cases hpn : processNeighbours c s pos offsets D rest with
      | error m2 =>
        rw [hpn] at h
        simp only [LoopRes.err.injEq] at h
        rw [← h]
        exact processNeighbours_error c s pos _ _ _ _ hpn
      | ok p2 =>
        obtain ⟨D2, band2⟩ := p2
        rw [hpn] at h
        exact ih _ _ _ h

/-- Every entry of the initial band has priority 0 (it holds exactly the
known seeds, pushed with priority 0). -/
theorem initBand_priority (rows cols : Int) (D : Int → Int → ℚ) :
    ∀ e ∈ initBand rows cols D, e.1 = 0 := by
  unfold initBand
  have key : ∀ (l : List (Int × Int)) (acc : Band),
      (∀ e ∈ acc, e.1 = 0) →
      ∀ e ∈ l.foldl (fun band yx =>
          if D yx.1 yx.2 ≠ 0 then ((0 : ℚ), (⟨yx.2, yx.1⟩ : Point)) :: band
          else band) acc, e.1 = 0 := by
    intro l
    induction l with
    | nil => intro acc hacc e he; exact hacc e he
    | cons yx l ih =>
      intro acc hacc e he
      simp only [List.foldl_cons] at he
      by_cases h : D yx.1 yx.2 ≠ 0
      · rw [if_pos h] at he
        refine ih _ ?_ e he
        intro e2 he2
        rcases List.mem_cons.mp he2 with h1 | h2
        · rw [h1]
        · exact hacc e2 h2
      · rw [if_neg h] at he
        exact ih _ hacc e he
  exact key _ [] (by intro e he; simp at he)

/-- Extract the band from a successful neighbour-processing result. -/
def resBand (r : Except String ((Int → Int → ℚ) × Band)) : Option Band :=
  match r with
  | .ok p => some p.2
  | .error _ => none

/-- C5 — At a deferral (an in-bounds neighbour with unknown depth whose
prediction comes back 0): when the popped priority s is not below −20 the
popped parent is re-enqueued with priority s − 1; exactly when s < −20 the
run aborts with the fatal "Too few known values…" error; and the only error
the whole propagation loop can ever return is that message, with no output
image attached. -/
theorem claim_C5 (c : Ctx) (s : ℚ) (pos d : Point) (ds : List Point)
    (D : Int → Int → ℚ) (band : Band)
    (hin : 0 ≤ pos.x + d.x ∧ 0 ≤ pos.y + d.y ∧
      pos.x + d.x < c.cols ∧ pos.y + d.y < c.rows)
    (hz : D (pos.y + d.y) (pos.x + d.x) = 0)
    (hp : c.pred D (pos.x + d.x) (pos.y + d.y) = 0) :
    (s < -20 →
      processNeighbours c s pos (d :: ds) D band = .error tooFewMsg) ∧
    (¬ s < -20 → ∀ D2 band2,
      processNeighbours c s pos (d :: ds) D band = .ok (D2, band2) →
      (s - 1, pos) ∈ band2) ∧
    (∀ fuel D0 band0 m, loop c fuel D0 band0 = .err m → m = tooFewMsg) := by
  refine ⟨?_, ?_, loop_err c⟩
  · intro hs
    simp only [processNeighbours, if_neg (not_not_intro hin), if_pos hz,
      if_neg (not_not_intro hp), if_pos hs]
  · intro hs D2 band2 hrun
    simp only [processNeighbours, if_neg (not_not_intro hin), if_pos hz,
      if_neg (not_not_intro hp), if_neg hs] at hrun
    exact processNeighbours_band_mono c s pos ds _ _ _ _ hrun _
      (List.mem_cons_self _ _)

/-- C6 (amended) — Initial seeds are enqueued with priority 0; under the
invariant that all band priorities are ≤ 0 and the popped priority s is ≤ 0,
every entry of the band after a neighbour step is an old entry, the deferred
parent re-enqueued at priority exactly s − 1 ≤ −1 (so the first deferral of
an initial seed gets priority exactly −1, decremented by 1 on each retry), or
a successful push at the strictly negative speed of the filled neighbour; in
particular all priorities stay ≤ 0. -/
theorem claim_C6_amended (pred : (Int → Int → ℚ) → Int → Int → ℚ)
    (gxF gyF : Int → Int → Fin 3 → ℚ) (rows cols : Int)
    (D0 : Int → Int → ℚ) (s : ℚ) (pos : Point) (ds : List Point)
    (D : Int → Int → ℚ) (band : Band) (D2 : Int → Int → ℚ) (band2 : Band)
    (hband : ∀ e ∈ band, e.1 ≤ 0) (hs : s ≤ 0)
    (hrun : processNeighbours (mkCtx pred gxF gyF rows cols) s pos ds D band =
      .ok (D2, band2)) :
    (∀ e ∈ initBand rows cols D0, e.1 = 0) ∧
    (∀ e ∈ band2, e ∈ band ∨ (e = (s - 1, pos) ∧ e.1 ≤ -1) ∨
      (e.1 = ComputeSpeed (gradientStrength gxF gyF) e.2 ∧ e.1 < 0)) ∧
    (∀ e ∈ band2, e.1 ≤ 0) := by
  have hchar : ∀ e ∈ band2, e ∈ band ∨ (e = (s - 1, pos) ∧ e.1 ≤ -1) ∨
      (e.1 = ComputeSpeed (gradientStrength gxF gyF) e.2 ∧ e.1 < 0) := by
    intro e he
    rcases processNeighbours_new_entries _ s pos ds D band D2 band2 hrun e he with
      h1 | h2 | ⟨nb, h3⟩
    · exact Or.inl h1
    · refine Or.inr (Or.inl ⟨h2, ?_⟩)
      rw [h2]
      simpa using by linarith
    · refine Or.inr (Or.inr ?_)
      rw [h3]
      exact ⟨rfl, (ComputeSpeed_range gxF gyF nb).2.1⟩
  refine ⟨initBand_priority rows cols D0, hchar, ?_⟩
  intro e he
  rcases hchar e he with h1 | ⟨h2, h2le⟩ | ⟨_, h3⟩
  · exact hband e h1
  · linarith
  · linarith

/-- C9 (amended) — Dimension mismatch between the RGB and depth images makes
the inpaint call fail pre-flight (before any propagation) with the fixed
message "Images must have same size.", which contains no digit and hence
does not name the two sizes; a depth image that is not single-channel, or an
RGB image that is not 3-channel, likewise fails pre-flight with the
respective CHECK-macro message. -/
theorem claim_C9_amended (pred : (Int → Int → ℚ) → Int → Int → ℚ)
    (gxF gyF : Int → Int → Fin 3 → ℚ) (dIn : DepthInput) (rgb : RgbInput) :
    (rgb.cols ≠ dIn.cols ∨ rgb.rows ≠ dIn.rows →
      InPaintBase pred gxF gyF dIn rgb = .err sameSizeMsg) ∧
    (rgb.cols = dIn.cols → rgb.rows = dIn.rows → dIn.channels ≠ 1 →
      InPaintBase pred gxF gyF dIn rgb = .err depthChannelsMsg) ∧
    (rgb.cols = dIn.cols → rgb.rows = dIn.rows → dIn.channels = 1 →
      rgb.channels ≠ 3 →
      InPaintBase pred gxF gyF dIn rgb = .err rgbChannelsMsg) ∧
    (∀ ch ∈ sameSizeMsg.toList, ¬ ch.isDigit) := by
  refine ⟨?_, ?_, ?_, by decide⟩
  · intro h
    unfold InPaintBase
    rw [if_pos h]
  · intro h1 h2 h3
    unfold InPaintBase
    rw [if_neg (by simp [h1, h2]), if_pos h3]
  · intro h1 h2 h3 h4
    unfold InPaintBase
    rw [if_neg (by simp [h1, h2]), if_neg (not_not_intro h3), if_pos h4]

/-- C9 (counterexample) — With a 1×1 depth image and a 1×2 RGB image the
call fails with exactly "Images must have same size.", a message containing
no digit at all, while the decimal names of the two mismatched sizes would
contain one; the message therefore does not name the sizes. -/
theorem claim_C9_counterexample :
    InPaintBase (fun _ _ _ => 0) (fun _ _ _ => 0) (fun _ _ _ => 0)
      ⟨1, 1, 1, fun _ _ => 1⟩ ⟨1, 2, 3, fun _ _ _ => 0⟩ = .err sameSizeMsg ∧
    (∀ ch ∈ sameSizeMsg.toList, ¬ ch.isDigit) ∧
    (∃ ch ∈ (toString (1 : ℕ) ++ toString (2 : ℕ)).toList, ch.isDigit) := by
  refine ⟨?_, by decide, by decide⟩
  unfold InPaintBase
  rw [if_pos (by norm_num)]

/-- Known (non-zero) pixels keep their value through the whole loop. -/
theorem loop_preserves (c : Ctx) : ∀ (fuel : ℕ) (D : Int → Int → ℚ)
    (band : Band) (Dout : Int → Int → ℚ),
    loop c fuel D band = .ok Dout →
    ∀ yy xx, D yy xx ≠ 0 → Dout yy xx = D yy xx := by
  intro fuel
  induction fuel with
  | zero => intro D band Dout h; simp [loop] at h
  | succ n ih =>
    intro D band Dout h yy xx hnz
    rw [loop] at h
    cases hpm : popMax band with
    | none =>
      rw [hpm] at h
      simp only [LoopRes.ok.injEq] at h
      rw [← h]
    | some p =>
      obtain ⟨⟨s, pos⟩, rest⟩ := p
      rw [hpm] at h
      dsimp only at h
      cases hpn : processNeighbours c s pos offsets D rest with
      | error m2 => rw [hpn] at h; simp at h
      | ok p2 =>
        obtain ⟨D2, band2⟩ := p2
        rw [hpn] at h
        have hstep := processNeighbours_preserves c s pos offsets D rest D2
          band2 hpn yy xx hnz
        have hrest := ih D2 band2 Dout h yy xx (by rw [hstep]; exact hnz)
        rw [hrest, hstep]

/-- The 16-bit round trip is the identity on integers below 2^16. -/
theorem toU16_natCast (n : ℕ) (h : n < 65536) : toU16 ((n : ℚ)) = n := by
  unfold toU16 cvRound
  have hfloor : ⌊((n : ℚ))⌋ = (n : Int) := by
    exact_mod_cast Int.floor_intCast (α := ℚ) (n : Int)
  rw [hfloor]
  have hne : ((n : ℚ)) - ((n : Int) : ℚ) ≠ 1/2 := by
    push_cast
    norm_num
  rw [if_neg hne]
  have hround : round ((n : ℚ)) = (n : Int) := by
    exact_mod_cast round_intCast (α := ℚ) (n : Int)
  rw [hround]
  have h1 : max 0 ((n : Int)) = (n : Int) := max_eq_right (by positivity)
  rw [h1]
  have h2 : min 65535 ((n : Int)) = (n : Int) := min_eq_right (by omega)
  rw [h2]
  exact Int.toNat_natCast n

/-- C2 — Known pixels are never overwritten: for every pixel with non-zero
input depth, the float working image still holds exactly the input value
whenever the propagation loop completes (for any fuel), and the 16-bit
output of a successful inpaint call holds the input value bit-exactly
(16-bit values are below 2^16 ≤ 2^24 and convert to float and back
exactly). -/
theorem claim_C2 (g : GDFMM) (gxF gyF : Int → Int → Fin 3 → ℚ)
    (dIn : DepthInput) (rgb : RgbInput)
    (hcols : rgb.cols = dIn.cols) (hrows : rgb.rows = dIn.rows)
    (hch1 : dIn.channels = 1) (hch3 : rgb.channels = 3)
    (yy xx : Int) (hnz : dIn.data yy xx ≠ 0) (hlt : dIn.data yy xx < 65536) :
    (∀ (fuel : ℕ) (band : Band) (Dq : Int → Int → ℚ),
      loop (mkCtx (fun D xx2 yy2 => g.PredictDepth dIn.rows dIn.cols D rgb.data xx2 yy2)
          gxF gyF dIn.rows dIn.cols) fuel (initDepth dIn) band = .ok Dq →
      Dq yy xx = (dIn.data yy xx : ℚ)) ∧
    (∀ out, g.InPaint gxF gyF dIn rgb = .ok out → out yy xx = dIn.data yy xx) := by
  have hnzq : initDepth dIn yy xx ≠ 0 := by
    unfold initDepth
    exact_mod_cast hnz
  constructor
  · intro fuel band Dq hloop
    have := loop_preserves _ fuel (initDepth dIn) band Dq hloop yy xx hnzq
    rw [this]
    rfl
  · intro out hout
    unfold GDFMM.InPaint InPaintBase at hout
    rw [if_neg (by simp [hcols, hrows]), if_neg (not_not_intro hch1),
      if_neg (not_not_intro hch3)] at hout
    cases hloop : loop (mkCtx (fun D xx2 yy2 =>
        g.PredictDepth dIn.rows dIn.cols D rgb.data xx2 yy2) gxF gyF dIn.rows dIn.cols)
        (measureFn dIn.rows dIn.cols (initDepth dIn)
          (initBand dIn.rows dIn.cols (initDepth dIn)) + 1)
        (initDepth dIn) (initBand dIn.rows dIn.cols (initDepth dIn)) with
    | ok Dq =>
      rw [hloop] at hout
      unfold finishRes at hout
      simp only [Res.ok.injEq] at hout
      have hpres := loop_preserves _ _ (initDepth dIn) _ Dq hloop yy xx hnzq
      rw [← hout]
      show toU16 (Dq yy xx) = dIn.data yy xx
      rw [hpres]
      unfold initDepth
      exact toU16_natCast _ hlt
    | err m => rw [hloop] at hout; simp [finishRes] at hout
    | fuelEmpty => rw [hloop] at hout; simp [finishRes] at hout

/-! ### Value bounds: depth pixels are 0 or at least 1 throughout a run -/

/-- A point is inside the image. -/
def insideP (rows cols : Int) (p : Point) : Prop :=
  0 ≤ p.x ∧ 0 ≤ p.y ∧ p.x < cols ∧ p.y < rows

instance (rows cols : Int) (p : Point) : Decidable (insideP rows cols p) := by
  unfold insideP; infer_instance

/-- Every in-bounds depth value is 0 (unknown) or at least 1; true of the
integer-valued input and preserved by the bilateral fill values. -/
def Dbound (rows cols : Int) (D : Int → Int → ℚ) : Prop :=
  ∀ yy xx, 0 ≤ yy → yy < rows → 0 ≤ xx → xx < cols →
    D yy xx = 0 ∨ 1 ≤ D yy xx

theorem intRange_mem (lo hi a : Int) (h : a ∈ intRange lo hi) :
    lo ≤ a ∧ a ≤ hi := by
  unfold intRange at h
  rcases List.mem_map.mp h with ⟨i, hi1, hi2⟩
  rw [List.mem_range] at hi1
  have hlt : (i : Int) < hi + 1 - lo := Int.lt_toNat.mp hi1
  omega

theorem windowCoords_mem (rows cols x y r : Int) (mn : Int × Int)
    (h : mn ∈ windowCoords rows cols x y r) :
    0 ≤ mn.1 ∧ mn.1 < cols ∧ 0 ≤ mn.2 ∧ mn.2 < rows := by
  unfold windowCoords at h
  rcases List.mem_flatMap.mp h with ⟨n, hn, hmn⟩
  rcases List.mem_map.mp hmn with ⟨m, hm, hmn2⟩
  have h1 := intRange_mem _ _ _ hn
  have h2 := intRange_mem _ _ _ hm
  rw [← hmn2]
  constructor
  · exact le_trans (le_max_left 0 (x - r)) h2.1
  refine ⟨?_, ?_, ?_⟩
  · exact lt_of_le_of_lt (le_trans h2.2 (min_le_left _ _)) (by omega)
  · exact le_trans (le_max_left 0 (y - r)) h1.1
  · exact lt_of_le_of_lt (le_trans h1.2 (min_le_left _ _)) (by omega)

/-- On a bounded depth image, the bilateral predictor returns 0 or a value
at least 1 (a positively weighted mean of known depths, each at least 1). -/
theorem PredictDepth_bound (g : GDFMM) (rows cols : Int) (D : Int → Int → ℚ)
    (rgb : Int → Int → Fin 3 → Int) (x y : Int)
    (hD : Dbound rows cols D) :
    g.PredictDepth rows cols D rgb x y = 0 ∨
      1 ≤ g.PredictDepth rows cols D rgb x y := by
  unfold GDFMM.PredictDepth
  rw [pdStats_eq]
  set known := knownCoords rows cols D x y (g.windowSize / 2) with hk
  by_cases hc : known.length ≤ 3
  · left; simp [hc]
  · right
    simp only [hc, if_false]
    have hlen : 4 ≤ known.length := by omega
    have hsumW : (4 : ℚ)/1000000 ≤ (known.map (flooredWeight g rgb x y)).sum := by
      have h1 : ((known.length : ℚ)) * ((1 : ℚ)/1000000) ≤
          (known.map (flooredWeight g rgb x y)).sum :=
        sum_map_ge_const _ _ _ (fun mn _ => flooredWeight_ge g rgb x y mn)
      have h2 : (4 : ℚ) ≤ (known.length : ℚ) := by exact_mod_cast hlen
      nlinarith
    have hpos : (0 : ℚ) < (known.map (flooredWeight g rgb x y)).sum := by
      nlinarith
    rw [le_div_iff₀ hpos]
    have hd1 : ∀ mn ∈ known, (1 : ℚ) ≤ D mn.2 mn.1 := by
      intro mn hmn
      have hmem : mn ∈ windowCoords rows cols x y (g.windowSize / 2) :=
        List.mem_of_mem_filter hmn
      have hnz : D mn.2 mn.1 ≠ 0 := by
        have := List.of_mem_filter hmn
        simpa using this
      have hb := windowCoords_mem rows cols x y (g.windowSize / 2) mn hmem
      rcases hD mn.2 mn.1 hb.2.2.1 hb.2.2.2 hb.1 hb.2.1 with h0 | h1
      · exact absurd h0 hnz
      · exact h1
    have := sum_map_mul_ge known (flooredWeight g rgb x y)
      (fun mn => D mn.2 mn.1) 1
      (fun mn _ => le_trans (by norm_num) (flooredWeight_ge g rgb x y mn)) hd1
    linarith

/-- A value at least 1 survives the 16-bit conversion as a non-zero pixel. -/
theorem toU16_ne_zero (q : ℚ) (h : 1 ≤ q) : toU16 q ≠ 0 := by
  unfold toU16 cvRound
  have hfl : 1 ≤ ⌊q⌋ := by
    rw [Int.le_floor]
    exact_mod_cast h
  have hr : 1 ≤ round q := by
    rw [round_eq]
    have : (1 : ℚ) ≤ q + 1/2 := by linarith
    rw [Int.le_floor]
    exact_mod_cast this
  split
  · split
    · omega
    · omega
  · omega

/-- The unknown set only shrinks: a pixel that is zero after the neighbour
step was already zero before it. -/
theorem processNeighbours_zero_mono (c : Ctx) (s : ℚ) (pos : Point) :
    ∀ (ds : List Point) (D : Int → Int → ℚ) (band : Band)
      (D2 : Int → Int → ℚ) (band2 : Band),
      processNeighbours c s pos ds D band = .ok (D2, band2) →
      ∀ yy xx, D2 yy xx = 0 → D yy xx = 0 := by
  intro ds
  induction ds with
  | nil =>
    intro D band D2 band2 h yy xx hz
    simp only [processNeighbours, Except.ok.injEq, Prod.mk.injEq] at h
    rw [h.1]; exact hz
  | cons d ds ih =>
    intro D band D2 band2 h yy xx hz
    simp only [processNeighbours] at h
    split at h
    · exact ih _ _ _ _ h yy xx hz
    · split at h
      · rename_i hDz
        split at h
        · rename_i hpnz
          have h2 := ih _ _ _ _ h yy xx hz
          unfold updateD at h2
          split at h2
          · exact absurd h2 hpnz
          · exact h2
        · split at h
          · exact absurd h (by simp)
          · rename_i hpz
            have h2 := ih _ _ _ _ h yy xx hz
            unfold updateD at h2
            split at h2
            · rename_i heq
              rw [heq.1, heq.2]
              exact hDz
            · exact h2
      · exact ih _ _ _ _ h yy xx hz

/-- A pixel that becomes known during a neighbour step gets a band entry. -/
theorem processNeighbours_new_nonzero (c : Ctx) (s : ℚ) (pos : Point) :
    ∀ (ds : List Point) (D : Int → Int → ℚ) (band : Band)
      (D2 : Int → Int → ℚ) (band2 : Band),
      processNeighbours c s pos ds D band = .ok (D2, band2) →
      ∀ p : Point, D2 p.y p.x ≠ 0 →
        D p.y p.x ≠ 0 ∨ ∃ e ∈ band2, e.2 = p := by
  intro ds
  induction ds with
  | nil =>
    intro D band D2 band2 h p hnz
    simp only [processNeighbours, Except.ok.injEq, Prod.mk.injEq] at h
    rw [← h.1] at hnz
    exact Or.inl hnz
  | cons d ds ih =>
    intro D band D2 band2 h p hnz
    simp only [processNeighbours] at h
    split at h
    · exact ih _ _ _ _ h p hnz
    · split at h
      · rename_i hDz
        split at h
        · rcases ih _ _ _ _ h p hnz with h1 | h2
          · unfold updateD at h1
            split at h1
            · rename_i heq
              refine Or.inr ⟨(ComputeSpeed c.strength
                ⟨pos.x + d.x, pos.y + d.y⟩, ⟨pos.x + d.x, pos.y + d.y⟩), ?_, ?_⟩
              · exact processNeighbours_band_mono c s pos ds _ _ _ _ h _
                  (List.mem_cons_self _ _)
              · show (⟨pos.x + d.x, pos.y + d.y⟩ : Point) = p
                have hy := heq.1
                have hx := heq.2
                cases p
                simp only [Point.mk.injEq]
                exact ⟨hx.symm, hy.symm⟩
            · exact Or.inl h1
          · exact Or.inr h2
        · split at h
          · exact absurd h (by simp)
          · rename_i hpz2 hs20
            rcases ih _ _ _ _ h p hnz with h1 | h2
            · unfold updateD at h1
              split at h1
              · exact absurd h1 hpz2
              · exact Or.inl h1
            · exact Or.inr h2
      · exact ih _ _ _ _ h p hnz

/-- After a successful neighbour step, every processed in-bounds neighbour
is known, or the popped parent has been re-enqueued. -/
theorem processNeighbours_defers (c : Ctx) (s : ℚ) (pos : Point) :
    ∀ (ds : List Point) (D : Int → Int → ℚ) (band : Band)
      (D2 : Int → Int → ℚ) (band2 : Band),
      processNeighbours c s pos ds D band = .ok (D2, band2) →
      ∀ d ∈ ds,
        (0 ≤ pos.x + d.x ∧ 0 ≤ pos.y + d.y ∧
          pos.x + d.x < c.cols ∧ pos.y + d.y < c.rows) →
        D2 (pos.y + d.y) (pos.x + d.x) ≠ 0 ∨ ∃ e ∈ band2, e.2 = pos := by
  intro ds
  induction ds with
  | nil => intro D band D2 band2 h d hd; simp at hd
  | cons d0 ds ih =>
    intro D band D2 band2 h d hd hin
    simp only [processNeighbours] at h
    rcases List.mem_cons.mp hd with hd0 | hds
    · subst hd0
      split at h
      · rename_i hout
        exact absurd hin hout
      · split at h
        · rename_i hDz
          split at h
          · rename_i hpnz
            left
            have hupd : updateD D ⟨pos.x + d.x, pos.y + d.y⟩
                (c.pred D (pos.x + d.x) (pos.y + d.y))
                (pos.y + d.y) (pos.x + d.x) ≠ 0 := by
              unfold updateD
              rw [if_pos ⟨rfl, rfl⟩]
              exact hpnz
            have := processNeighbours_preserves c s pos ds _ _ _ _ h
              (pos.y + d.y) (pos.x + d.x) hupd
            rw [this]
            exact hupd
          · split at h
            · exact absurd h (by simp)
            · right
              exact ⟨(s - 1, pos),
                processNeighbours_band_mono c s pos ds _ _ _ _ h _
                  (List.mem_cons_self _ _), rfl⟩
        · rename_i hDnz
          left
          have := processNeighbours_preserves c s pos ds _ _ _ _ h
            (pos.y + d.y) (pos.x + d.x) hDnz
          rw [this]
          exact hDnz
    · split at h
      · exact ih _ _ _ _ h d hds hin
      · split at h
        · split at h
          · exact ih _ _ _ _ h d hds hin
          · split at h
            · exact absurd h (by simp)
            · exact ih _ _ _ _ h d hds hin
        · exact ih _ _ _ _ h d hds hin

/-- Updating one pixel with a bounded value keeps the image bounded. -/
theorem Dbound_update (rows cols : Int) (D : Int → Int → ℚ) (nb : Point)
    (v : ℚ) (hD : Dbound rows cols D) (hv : v = 0 ∨ 1 ≤ v) :
    Dbound rows cols (updateD D nb v) := by
  intro yy xx h1 h2 h3 h4
  unfold updateD
  split
  · exact hv
  · exact hD yy xx h1 h2 h3 h4

/-- The neighbour step keeps the image bounded, provided the predictor
returns 0 or a value at least 1 on bounded images. -/
theorem processNeighbours_Dbound (c : Ctx)
    (hpred : ∀ D, Dbound c.rows c.cols D →
      ∀ xx yy, c.pred D xx yy = 0 ∨ 1 ≤ c.pred D xx yy)
    (s : ℚ) (pos : Point) :
    ∀ (ds : List Point) (D : Int → Int → ℚ) (band : Band)
      (D2 : Int → Int → ℚ) (band2 : Band),
      Dbound c.rows c.cols D →
      processNeighbours c s pos ds D band = .ok (D2, band2) →
      Dbound c.rows c.cols D2 := by
  intro ds
  induction ds with
  | nil =>
    intro D band D2 band2 hD h
    simp only [processNeighbours, Except.ok.injEq, Prod.mk.injEq] at h
    rw [← h.1]; exact hD
  | cons d ds ih =>
    intro D band D2 band2 hD h
    simp only [processNeighbours] at h
    split at h
    · exact ih _ _ _ _ hD h
    · split at h
      · split at h
        · exact ih _ _ _ _ (Dbound_update _ _ _ _ _ hD (hpred D hD _ _)) h
        · split at h
          · exact absurd h (by simp)
          · exact ih _ _ _ _ (Dbound_update _ _ _ _ _ hD (hpred D hD _ _)) h
      · exact ih _ _ _ _ hD h

/-- Introduction rule for intRange membership. -/
theorem mem_intRange (lo hi a : Int) (h1 : lo ≤ a) (h2 : a ≤ hi) :
    a ∈ intRange lo hi := by
  unfold intRange
  refine List.mem_map.mpr ⟨(a - lo).toNat, List.mem_range.mpr ?_, ?_⟩
  · omega
  · omega

/-- Every in-bounds coordinate pair occurs in the scan list. -/
theorem mem_coordList (rows cols yy xx : Int) (h1 : 0 ≤ yy) (h2 : yy < rows)
    (h3 : 0 ≤ xx) (h4 : xx < cols) : (yy, xx) ∈ coordList rows cols := by
  unfold coordList
  refine List.mem_flatMap.mpr ⟨yy, mem_intRange _ _ _ h1 (by omega), ?_⟩
  exact List.mem_map.mpr ⟨xx, mem_intRange _ _ _ h3 (by omega), rfl⟩

/-- Every known in-bounds pixel is enqueued (with priority 0) by the band
initialization. -/
theorem initBand_mem (rows cols : Int) (D : Int → Int → ℚ) (p : Point)
    (hin : insideP rows cols p) (hnz : D p.y p.x ≠ 0) :
    ((0 : ℚ), p) ∈ initBand rows cols D := by
  unfold initBand
  have key : ∀ (l : List (Int × Int)) (acc : Band),
      (((p.y, p.x) ∈ l ∧ D p.y p.x ≠ 0) ∨ ((0 : ℚ), p) ∈ acc) →
      ((0 : ℚ), p) ∈ l.foldl (fun band yx =>
        if D yx.1 yx.2 ≠ 0 then ((0 : ℚ), (⟨yx.2, yx.1⟩ : Point)) :: band
        else band) acc := by
    intro l
    induction l with
    | nil =>
      intro acc hacc
      rcases hacc with ⟨hmem, _⟩ | hmem
      · simp at hmem
      · exact hmem
    | cons yx l ih =>
      intro acc hacc
      simp only [List.foldl_cons]
      rcases hacc with ⟨hmem, hnz2⟩ | hmem
      · rcases List.mem_cons.mp hmem with heq | htail
        · refine ih _ (Or.inr ?_)
          rw [← heq]
          rw [if_pos (by exact hnz2)]
          have hpt : (⟨(p.y, p.x).2, (p.y, p.x).1⟩ : Point) = p := rfl
          rw [hpt]
          exact List.mem_cons_self _ _
        · refine ih _ (Or.inl ⟨htail, hnz2⟩)
      · refine ih _ (Or.inr ?_)
        split
        · exact List.mem_cons_of_mem _ hmem
        · exact hmem
  refine key _ [] (Or.inl ⟨?_, hnz⟩)
  exact mem_coordList rows cols p.y p.x hin.2.1 hin.2.2.2 hin.1 hin.2.2.1

/-- The frontier invariant: every known in-bounds pixel that still has an
unknown in-bounds 4-neighbour owns a band entry. -/
def Inv3 (rows cols : Int) (D : Int → Int → ℚ) (band : Band) : Prop :=
  ∀ p : Point, insideP rows cols p → D p.y p.x ≠ 0 →
    (∃ d ∈ offsets, insideP rows cols ⟨p.x + d.x, p.y + d.y⟩ ∧
      D (p.y + d.y) (p.x + d.x) = 0) →
    ∃ e ∈ band, e.2 = p

/-- The invariant holds initially. -/
theorem Inv3_init (rows cols : Int) (D : Int → Int → ℚ) :
    Inv3 rows cols D (initBand rows cols D) := by
  intro p hp hnz _
  exact ⟨((0 : ℚ), p), initBand_mem rows cols D p hp hnz, rfl⟩

/-- One pop-and-process iteration preserves the frontier invariant. -/
theorem Inv3_step (c : Ctx) (D : Int → Int → ℚ) (band : Band)
    (s : ℚ) (pos : Point) (rest : Band) (D2 : Int → Int → ℚ) (band2 : Band)
    (hInv : Inv3 c.rows c.cols D band)
    (hpop : popMax band = some ((s, pos), rest))
    (hstep : processNeighbours c s pos offsets D rest = .ok (D2, band2)) :
    Inv3 c.rows c.cols D2 band2 := by
  rintro p hp hnz ⟨d0, hd0off, hd0in, hd0z⟩
  rcases processNeighbours_new_nonzero c s pos offsets D rest D2 band2 hstep
    p hnz with hold | hnew
  swap
  · exact hnew
  by_cases hppos : p = pos
  · subst hppos
    rcases processNeighbours_defers c s p offsets D rest D2 band2 hstep
      d0 hd0off hd0in with hnz2 | hentry
    · exact absurd hd0z hnz2
    · exact hentry
  · have hzold : D (p.y + d0.y) (p.x + d0.x) = 0 :=
      processNeighbours_zero_mono c s pos offsets D rest D2 band2 hstep _ _ hd0z
    obtain ⟨e, he, hep⟩ := hInv p hp hold ⟨d0, hd0off, hd0in, hzold⟩
    rcases popMax_cover band _ _ hpop e he with heq | hrest
    · exact absurd (by rw [← hep, heq]) hppos
    · exact ⟨e, processNeighbours_band_mono c s pos offsets D rest D2 band2
        hstep e hrest, hep⟩

/-- If the loop completes normally, no known pixel of the result has an
unknown in-bounds 4-neighbour. -/
theorem loop_ok_no_boundary (c : Ctx) : ∀ (fuel : ℕ) (D : Int → Int → ℚ)
    (band : Band) (Dout : Int → Int → ℚ),
    loop c fuel D band = .ok Dout → Inv3 c.rows c.cols D band →
    ∀ p : Point, insideP c.rows c.cols p → Dout p.y p.x ≠ 0 →
      ∀ d ∈ offsets, insideP c.rows c.cols ⟨p.x + d.x, p.y + d.y⟩ →
        Dout (p.y + d.y) (p.x + d.x) ≠ 0 := by
  intro fuel
  induction fuel with
  | zero => intro D band Dout h; simp [loop] at h
  | succ n ih =>
    intro D band Dout h hInv p hp hnz d hd hdin hz
    rw [loop] at h
    cases hpm : popMax band with
    | none =>
      rw [hpm] at h
      simp only [LoopRes.ok.injEq] at h
      subst h
      have hband : band = [] := popMax_eq_none band hpm
      obtain ⟨e, he, _⟩ := hInv p hp hnz ⟨d, hd, hdin, hz⟩
      rw [hband] at he
      simp at he
    | some pr =>
      obtain ⟨⟨s, pos⟩, rest⟩ := pr
      rw [hpm] at h
      dsimp only at h
      cases hpn : processNeighbours c s pos offsets D rest with
      | error m2 => rw [hpn] at h; simp at h
      | ok p2 =>
        obtain ⟨D2, band2⟩ := p2
        rw [hpn] at h
        exact ih D2 band2 Dout h
          (Inv3_step c D band s pos rest D2 band2 hInv hpm hpn)
          p hp hnz d hd hdin hz

/-- The loop keeps the image bounded. -/
theorem loop_Dbound (c : Ctx)
    (hpred : ∀ D, Dbound c.rows c.cols D →
      ∀ xx yy, c.pred D xx yy = 0 ∨ 1 ≤ c.pred D xx yy) :
    ∀ (fuel : ℕ) (D : Int → Int → ℚ) (band : Band) (Dout : Int → Int → ℚ),
      Dbound c.rows c.cols D → loop c fuel D band = .ok Dout →
      Dbound c.rows c.cols Dout := by
  intro fuel
  induction fuel with
  | zero => intro D band Dout _ h; simp [loop] at h
  | succ n ih =>
    intro D band Dout hD h
    rw [loop] at h
    cases hpm : popMax band with
    | none =>
      rw [hpm] at h
      simp only [LoopRes.ok.injEq] at h
      rw [← h]
      exact hD
    | some pr =>
      obtain ⟨⟨s, pos⟩, rest⟩ := pr
      rw [hpm] at h
      dsimp only at h
      cases hpn : processNeighbours c s pos offsets D rest with
      | error m2 => rw [hpn] at h; simp at h
      | ok p2 =>
        obtain ⟨D2, band2⟩ := p2
        rw [hpn] at h
        exact ih D2 band2 Dout
          (processNeighbours_Dbound c hpred s pos offsets D rest D2 band2 hD hpn) h

/-! ### Termination of the propagation loop -/

theorem eExp_pos (s : ℚ) (h : -21 ≤ s) : 1 ≤ eExp s := by
  unfold eExp
  have h2 : ((-21 : Int) : ℚ) ≤ s := by exact_mod_cast h
  have h3 : (-21 : Int) ≤ ⌈s⌉ := by
    calc (-21 : Int) = ⌈((-21 : Int) : ℚ)⌉ := (Int.ceil_intCast _).symm
      _ ≤ ⌈s⌉ := Int.ceil_le_ceil h2
  omega

theorem eExp_sub_one (s : ℚ) (h : -20 ≤ s) : eExp (s - 1) = eExp s - 1 := by
  unfold eExp
  have hc : ⌈s - 1⌉ = ⌈s⌉ - 1 := by
    rw [show (1 : ℚ) = ((1 : Int) : ℚ) by norm_num, Int.ceil_sub_int]
  have h2 : ((-20 : Int) : ℚ) ≤ s := by exact_mod_cast h
  have h3 : (-20 : Int) ≤ ⌈s⌉ := by
    calc (-20 : Int) = ⌈((-20 : Int) : ℚ)⌉ := (Int.ceil_intCast _).symm
      _ ≤ ⌈s⌉ := Int.ceil_le_ceil h2
  rw [hc]
  omega

theorem eExp_nonpos_le (s : ℚ) (h : s ≤ 0) : eExp s ≤ 22 := by
  unfold eExp
  have h3 : ⌈s⌉ ≤ 0 := Int.ceil_le.mpr (by exact_mod_cast h)
  omega

theorem zerosCount_update_zero (rows cols : Int) (D : Int → Int → ℚ)
    (nb : Point) (hz : D nb.y nb.x = 0) :
    zerosCount rows cols (updateD D nb 0) = zerosCount rows cols D := by
  unfold zerosCount
  congr 1
  apply Finset.filter_congr
  intro yx _
  unfold updateD
  split
  · rename_i heq
    simp only [heq.1, heq.2, hz]
  · rfl

theorem zerosCount_update_fill (rows cols : Int) (D : Int → Int → ℚ)
    (nb : Point) (v : ℚ) (hin : insideP rows cols nb)
    (hz : D nb.y nb.x = 0) (hv : v ≠ 0) :
    zerosCount rows cols (updateD D nb v) + 1 = zerosCount rows cols D := by
  unfold zerosCount
  have hset : ((Finset.Ico 0 rows ×ˢ Finset.Ico 0 cols).filter
        (fun yx => updateD D nb v yx.1 yx.2 = 0)) =
      ((Finset.Ico 0 rows ×ˢ Finset.Ico 0 cols).filter
        (fun yx => D yx.1 yx.2 = 0)).erase (nb.y, nb.x) := by
    ext yx
    simp only [Finset.mem_filter, Finset.mem_erase]
    unfold updateD
    constructor
    · rintro ⟨hmem, hval⟩
      split at hval
      · exact absurd hval hv
      · rename_i hne
        refine ⟨?_, hmem, hval⟩
        intro hyx
        exact hne ⟨by rw [hyx], by rw [hyx]⟩
    · rintro ⟨hne, hmem, hval⟩
      refine ⟨hmem, ?_⟩
      split
      · rename_i heq
        exact absurd (Prod.ext heq.1 heq.2) hne
      · exact hval
  rw [hset]
  have hmem : ((nb.y, nb.x) : Int × Int) ∈
      ((Finset.Ico 0 rows ×ˢ Finset.Ico 0 cols).filter
        (fun yx => D yx.1 yx.2 = 0)) := by
    refine Finset.mem_filter.mpr ⟨?_, hz⟩
    refine Finset.mem_product.mpr ⟨?_, ?_⟩
    · exact Finset.mem_Ico.mpr ⟨hin.2.1, hin.2.2.2⟩
    · exact Finset.mem_Ico.mpr ⟨hin.1, hin.2.2.1⟩
  rw [Finset.card_erase_of_mem hmem]
  have := Finset.card_pos.mpr ⟨_, hmem⟩
  omega

theorem potential_cons (t : ℚ) (p : Point) (band : Band) :
    potential ((t, p) :: band) = 5 ^ eExp t + potential band := by
  simp [potential]

/-- One neighbour step increases the measure contribution by at most one
deferral weight per remaining offset (fills strictly pay for themselves). -/
theorem processNeighbours_measure (pred : (Int → Int → ℚ) → Int → Int → ℚ)
    (gxF gyF : Int → Int → Fin 3 → ℚ) (rows cols : Int) (s : ℚ) (pos : Point) :
    ∀ (ds : List Point) (D : Int → Int → ℚ) (band : Band)
      (D2 : Int → Int → ℚ) (band2 : Band),
      processNeighbours (mkCtx pred gxF gyF rows cols) s pos ds D band =
        .ok (D2, band2) →
      potential band2 + 4 * 5 ^ 22 * zerosCount rows cols D2 ≤
        potential band + 4 * 5 ^ 22 * zerosCount rows cols D +
          ds.length * 5 ^ (eExp s - 1) := by
  intro ds
  induction ds with
  | nil =>
    intro D band D2 band2 h
    simp only [processNeighbours, Except.ok.injEq, Prod.mk.injEq] at h
    rw [h.1, h.2]
    simp
  | cons d ds ih =>
    intro D band D2 band2 h
    simp only [processNeighbours] at h
    have hmono : ds.length * 5 ^ (eExp s - 1) ≤
        (d :: ds).length * 5 ^ (eExp s - 1) := by
      simp only [List.length_cons]
      exact Nat.mul_le_mul_right _ (by omega)
    split at h
    · have := ih _ _ _ _ h
      omega
    · rename_i hout
      split at h
      · rename_i hDz
        split at h
        · rename_i hpnz
          have hih := ih _ _ _ _ h
          have hin : insideP rows cols ⟨pos.x + d.x, pos.y + d.y⟩ :=
            not_not.mp hout
          have hzc := zerosCount_update_fill rows cols D
            ⟨pos.x + d.x, pos.y + d.y⟩ _ hin hDz hpnz
          rw [potential_cons] at hih
          have hespeed : eExp (ComputeSpeed
              (mkCtx pred gxF gyF rows cols).strength ⟨pos.x + d.x, pos.y + d.y⟩) ≤ 22 :=
            eExp_nonpos_le _ (le_of_lt (ComputeSpeed_range gxF gyF _).2.1)
          have hpow : (5 : ℕ) ^ eExp (ComputeSpeed
              (mkCtx pred gxF gyF rows cols).strength ⟨pos.x + d.x, pos.y + d.y⟩) ≤ 5 ^ 22 :=
            Nat.pow_le_pow_right (by norm_num) hespeed
          omega
        · split at h
          · exact absurd h (by simp)
          · rename_i hpz hs20
            have hval : (mkCtx pred gxF gyF rows cols).pred D (pos.x + d.x)
                (pos.y + d.y) = 0 := not_not.mp hpz
            rw [hval] at h
            have hih := ih _ _ _ _ h
            have hzc := zerosCount_update_zero rows cols D
              ⟨pos.x + d.x, pos.y + d.y⟩ hDz
            rw [potential_cons, hzc] at hih
            have hsub : eExp (s - 1) = eExp s - 1 :=
              eExp_sub_one s (by linarith [not_lt.mp hs20])
            rw [hsub] at hih
            simp only [List.length_cons]
            have hdist : (ds.length + 1) * 5 ^ (eExp s - 1) =
                ds.length * 5 ^ (eExp s - 1) + 5 ^ (eExp s - 1) := by ring
            omega
      · have := ih _ _ _ _ h
        omega

/-- Priorities stay in [−21, 0] through a neighbour step. -/
theorem processNeighbours_bandOK (pred : (Int → Int → ℚ) → Int → Int → ℚ)
    (gxF gyF : Int → Int → Fin 3 → ℚ) (rows cols : Int) (s : ℚ) (pos : Point)
    (hs2 : s ≤ 0) :
    ∀ (ds : List Point) (D : Int → Int → ℚ) (band : Band)
      (D2 : Int → Int → ℚ) (band2 : Band),
      (∀ e ∈ band, -21 ≤ e.1 ∧ e.1 ≤ 0) →
      processNeighbours (mkCtx pred gxF gyF rows cols) s pos ds D band =
        .ok (D2, band2) →
      ∀ e ∈ band2, -21 ≤ e.1 ∧ e.1 ≤ 0 := by
  intro ds
  induction ds with
  | nil =>
    intro D band D2 band2 hband h
    simp only [processNeighbours, Except.ok.injEq, Prod.mk.injEq] at h
    rw [← h.2]
    exact hband
  | cons d ds ih =>
    intro D band D2 band2 hband h
    simp only [processNeighbours] at h
    split at h
    · exact ih _ _ _ _ hband h
    · split at h
      · split at h
        · refine ih _ _ _ _ ?_ h
          intro e he
          rcases List.mem_cons.mp he with heq | htail
          · rw [heq]
            have hr := ComputeSpeed_range gxF gyF ⟨pos.x + d.x, pos.y + d.y⟩
            have h1 : (-1 : ℚ) ≤ ComputeSpeed (mkCtx pred gxF gyF rows cols).strength
                ⟨pos.x + d.x, pos.y + d.y⟩ := hr.1
            have h2 : ComputeSpeed (mkCtx pred gxF gyF rows cols).strength
                ⟨pos.x + d.x, pos.y + d.y⟩ < 0 := hr.2.1
            exact ⟨by show (-21 : ℚ) ≤ _; linarith, by show _ ≤ (0 : ℚ); linarith⟩
          · exact hband e htail
        · split at h
          · exact absurd h (by simp)
          · rename_i hpz hs20
            refine ih _ _ _ _ ?_ h
            intro e he
            rcases List.mem_cons.mp he with heq | htail
            · rw [heq]
              have h20 := not_lt.mp hs20
              exact ⟨show (-21 : ℚ) ≤ s - 1 by linarith,
                show s - 1 ≤ (0 : ℚ) by linarith⟩
            · exact hband e htail
      · exact ih _ _ _ _ hband h

/-- Fuel exceeding the measure never runs out: the loop terminates. -/
theorem loop_no_fuelEmpty (pred : (Int → Int → ℚ) → Int → Int → ℚ)
    (gxF gyF : Int → Int → Fin 3 → ℚ) (rows cols : Int) :
    ∀ (fuel : ℕ) (D : Int → Int → ℚ) (band : Band),
      (∀ e ∈ band, -21 ≤ e.1 ∧ e.1 ≤ 0) →
      measureFn rows cols D band < fuel →
      loop (mkCtx pred gxF gyF rows cols) fuel D band ≠ .fuelEmpty := by
  intro fuel
  induction fuel with
  | zero => intro D band _ hlt; omega
  | succ n ih =>
    intro D band hband hlt
    rw [loop]
    cases hpm : popMax band with
    | none => simp
    | some pr =>
      obtain ⟨⟨s, pos⟩, rest⟩ := pr
      dsimp only
      cases hpn : processNeighbours (mkCtx pred gxF gyF rows cols) s pos offsets D rest with
      | error m2 => simp
      | ok p2 =>
        obtain ⟨D2, band2⟩ := p2
        have hsb := hband _ (popMax_mem band _ _ hpm)
        have hrestOK : ∀ e ∈ rest, -21 ≤ e.1 ∧ e.1 ≤ 0 := fun e he =>
          hband e (popMax_rest_mem band _ _ hpm e he)
        have hOK2 := processNeighbours_bandOK pred gxF gyF rows cols s pos
          hsb.2 offsets D rest D2 band2 hrestOK hpn
        have hmeas := processNeighbours_measure pred gxF gyF rows cols s pos
          offsets D rest D2 band2 hpn
        have hsplit := popMax_potential band _ _ hpm
        have h1 : 1 ≤ eExp s := eExp_pos s hsb.1
        have hstep : measureFn rows cols D2 band2 < measureFn rows cols D band := by
          unfold measureFn
          have hE : 5 ^ eExp s = 5 ^ (eExp s - 1) * 5 := by
            calc (5 : ℕ) ^ eExp s = 5 ^ ((eExp s - 1) + 1) := by
                  congr 1
                  omega
              _ = 5 ^ (eExp s - 1) * 5 := pow_succ 5 _
          have hCpos : 1 ≤ 5 ^ (eExp s - 1) := Nat.one_le_pow _ _ (by norm_num)
          have hlen : offsets.length = 4 := rfl
          rw [hlen] at hmeas
          dsimp only at hsplit
          omega
        exact ih D2 band2 hOK2 (by omega)

/-- All initial band entries have priority in [−21, 0]. -/
theorem initBand_bandOK (rows cols : Int) (D : Int → Int → ℚ) :
    ∀ e ∈ initBand rows cols D, -21 ≤ e.1 ∧ e.1 ≤ 0 := by
  intro e he
  have := initBand_priority rows cols D e he
  rw [this]
  norm_num

/-- 4-connectivity reachability from the known pixels of a depth image. -/
inductive Reaches (rows cols : Int) (D : Int → Int → ℚ) : Point → Prop where
  | seed (p : Point) : insideP rows cols p → D p.y p.x ≠ 0 →
      Reaches rows cols D p
  | step (p d : Point) : Reaches rows cols D p → d ∈ offsets →
      insideP rows cols ⟨p.x + d.x, p.y + d.y⟩ →
      Reaches rows cols D ⟨p.x + d.x, p.y + d.y⟩

theorem Reaches_inside (rows cols : Int) (D : Int → Int → ℚ) (p : Point)
    (h : Reaches rows cols D p) : insideP rows cols p := by
  induction h with
  | seed q hin _ => exact hin
  | step q d _ _ hin _ => exact hin

/-- C1 (amended) — For a well-shaped input with at least one known pixel in
which every unknown pixel is 4-connected to a known pixel, `inpaint`
terminates: it never exhausts its (self-computed, measure-sized) fuel, the
only error it can raise is the "Too few known values…" abort, and whenever
it returns an image, every in-bounds pixel of that image is non-zero. -/
theorem claim_C1_amended (g : GDFMM) (gxF gyF : Int → Int → Fin 3 → ℚ)
    (dIn : DepthInput) (rgb : RgbInput)
    (hcols : rgb.cols = dIn.cols) (hrows : rgb.rows = dIn.rows)
    (hch1 : dIn.channels = 1) (hch3 : rgb.channels = 3)
    (_hknown : ∃ p : Point, insideP dIn.rows dIn.cols p ∧ dIn.data p.y p.x ≠ 0)
    (hreach : ∀ p : Point, insideP dIn.rows dIn.cols p →
      initDepth dIn p.y p.x = 0 → Reaches dIn.rows dIn.cols (initDepth dIn) p) :
    g.InPaint gxF gyF dIn rgb ≠ .fuelEmpty ∧
    (∀ m, g.InPaint gxF gyF dIn rgb = .err m → m = tooFewMsg) ∧
    (∀ out, g.InPaint gxF gyF dIn rgb = .ok out →
      ∀ p : Point, insideP dIn.rows dIn.cols p → out p.y p.x ≠ 0) := by
  unfold GDFMM.InPaint InPaintBase
  rw [if_neg (by simp [hcols, hrows]), if_neg (not_not_intro hch1),
    if_neg (not_not_intro hch3)]
  have hbandOK := initBand_bandOK dIn.rows dIn.cols (initDepth dIn)
  have hterm := loop_no_fuelEmpty
    (fun D xx2 yy2 => g.PredictDepth dIn.rows dIn.cols D rgb.data xx2 yy2)
    gxF gyF dIn.rows dIn.cols
    (measureFn dIn.rows dIn.cols (initDepth dIn)
      (initBand dIn.rows dIn.cols (initDepth dIn)) + 1)
    (initDepth dIn) (initBand dIn.rows dIn.cols (initDepth dIn))
    hbandOK (Nat.lt_succ_self _)
  have hDb0 : Dbound dIn.rows dIn.cols (initDepth dIn) := by
    intro yy xx _ _ _ _
    unfold initDepth
    rcases Nat.eq_zero_or_pos (dIn.data yy xx) with h0 | h1
    · left; rw [h0]; norm_num
    · right; exact_mod_cast h1
  have hpred : ∀ Dd, Dbound dIn.rows dIn.cols Dd →
      ∀ xx2 yy2, g.PredictDepth dIn.rows dIn.cols Dd rgb.data xx2 yy2 = 0 ∨
        1 ≤ g.PredictDepth dIn.rows dIn.cols Dd rgb.data xx2 yy2 := by
    intro Dd hDd xx2 yy2
    exact PredictDepth_bound g dIn.rows dIn.cols Dd rgb.data xx2 yy2 hDd
  refine ⟨?_, ?_, ?_⟩
  · cases hloop : loop (mkCtx (fun D xx2 yy2 =>
        g.PredictDepth dIn.rows dIn.cols D rgb.data xx2 yy2) gxF gyF dIn.rows dIn.cols)
        (measureFn dIn.rows dIn.cols (initDepth dIn)
          (initBand dIn.rows dIn.cols (initDepth dIn)) + 1)
        (initDepth dIn) (initBand dIn.rows dIn.cols (initDepth dIn)) with
    | ok Dq => simp [finishRes]
    | err m => simp [finishRes]
    | fuelEmpty => exact absurd hloop hterm
  · intro m hm
    cases hloop : loop (mkCtx (fun D xx2 yy2 =>
        g.PredictDepth dIn.rows dIn.cols D rgb.data xx2 yy2) gxF gyF dIn.rows dIn.cols)
        (measureFn dIn.rows dIn.cols (initDepth dIn)
          (initBand dIn.rows dIn.cols (initDepth dIn)) + 1)
        (initDepth dIn) (initBand dIn.rows dIn.cols (initDepth dIn)) with
    | ok Dq => rw [hloop] at hm; simp [finishRes] at hm
    | err m2 =>
      rw [hloop] at hm
      simp only [finishRes, Res.err.injEq] at hm
      rw [← hm]
      exact loop_err _ _ _ _ _ hloop
    | fuelEmpty => exact absurd hloop hterm
  · intro out hout p hp
    cases hloop : loop (mkCtx (fun D xx2 yy2 =>
        g.PredictDepth dIn.rows dIn.cols D rgb.data xx2 yy2) gxF gyF dIn.rows dIn.cols)
        (measureFn dIn.rows dIn.cols (initDepth dIn)
          (initBand dIn.rows dIn.cols (initDepth dIn)) + 1)
        (initDepth dIn) (initBand dIn.rows dIn.cols (initDepth dIn)) with
    | err m2 => rw [hloop] at hout; simp [finishRes] at hout
    | fuelEmpty => exact absurd hloop hterm
    | ok Dq =>
      rw [hloop] at hout
      simp only [finishRes, Res.ok.injEq] at hout
      have hkey : ∀ q : Point, Reaches dIn.rows dIn.cols (initDepth dIn) q →
          Dq q.y q.x ≠ 0 := by
        intro q hq
        induction hq with
        | seed q hin hnz =>
          rw [loop_preserves _ _ _ _ _ hloop q.y q.x hnz]
          exact hnz
        | step q d hR hd hin ih =>
          exact loop_ok_no_boundary _ _ _ _ Dq hloop
            (Inv3_init dIn.rows dIn.cols (initDepth dIn)) q
            (Reaches_inside _ _ _ _ hR) ih d hd hin
      have hDq : Dq p.y p.x ≠ 0 := by
        by_cases hz : initDepth dIn p.y p.x = 0
        · exact hkey p (hreach p hp hz)
        · rw [loop_preserves _ _ _ _ _ hloop p.y p.x hz]
          exact hz
      have hb := loop_Dbound _ hpred _ (initDepth dIn) _ Dq hDb0 hloop
        p.y p.x hp.2.1 hp.2.2.2 hp.1 hp.2.2.1
      rcases hb with h0 | h1
      · exact absurd h0 hDq
      · rw [← hout]
        exact toU16_ne_zero _ h1

/-! ### Concrete instances used by witnesses and counterexamples -/

/-- A concrete GDFMM object (windowSize 3, caches constantly 1). -/
def gW : GDFMM := ⟨fun _ => 1, fun _ => 1, 3, 1⟩

/-- A 1-row, 2-column depth image with one known pixel at (0, 0). -/
def cwD : Int → Int → ℚ := fun yy xx => if yy = 0 ∧ xx = 0 then 100 else 0

/-- The zero gradient field. -/
def zf : Int → Int → Fin 3 → ℚ := fun _ _ _ => 0

/-- The bilateral predictor closure over the 1×2 image with a black RGB
image. -/
def cwPred : (Int → Int → ℚ) → Int → Int → ℚ :=
  fun D xx yy => gW.PredictDepth 1 2 D (fun _ _ _ => 0) xx yy

/-- The propagation context over the 1×2 image. -/
def cW : Ctx := mkCtx cwPred zf zf 1 2

theorem claim_C5_witness :
    cW.pred cwD (0 + 1) (0 + 0) = 0 ∧
    processNeighbours cW (-21) ⟨0, 0⟩ [⟨1, 0⟩] cwD [] = .error tooFewMsg ∧
    ((0 : ℚ) - 1, (⟨0, 0⟩ : Point)) ∈ [((0 : ℚ) - 1, (⟨0, 0⟩ : Point))] := by
  have hin : (0 : Int) ≤ 0 + 1 ∧ (0 : Int) ≤ 0 + 0 ∧
      (0 : Int) + 1 < cW.cols ∧ (0 : Int) + 0 < cW.rows := by decide
  have hz : cwD (0 + 0) (0 + 1) = 0 := by decide
  have hp : cW.pred cwD (0 + 1) (0 + 0) = 0 := by with_unfolding_all decide
  have habort := (claim_C5 cW (-21) ⟨0, 0⟩ ⟨1, 0⟩ [] cwD [] hin hz hp).1
    (by norm_num)
  have hdefer := (claim_C5 cW 0 ⟨0, 0⟩ ⟨1, 0⟩ [] cwD [] hin hz hp).2.1
    (by norm_num)
  have hrun : processNeighbours cW 0 ⟨0, 0⟩ [⟨1, 0⟩] cwD [] =
      .ok (updateD cwD ⟨0 + 1, 0 + 0⟩ (cW.pred cwD (0 + 1) (0 + 0)),
        [((0 : ℚ) - 1, ⟨0, 0⟩)]) := by
    with_unfolding_all rfl
  exact ⟨hp, habort, hdefer _ _ hrun⟩

/-- C6 (counterexample) — A deferral of an initial seed (popped priority 0)
re-enqueues the parent with priority 0 − 1 = −1, which is not strictly less
than −1: the claimed strict bound fails at the first deferral of a seed. -/
theorem claim_C6_counterexample :
    resBand (processNeighbours cW 0 ⟨0, 0⟩ offsets cwD []) =
      some [((0 : ℚ) - 1, ⟨0, 0⟩)] ∧
    ¬ ((0 : ℚ) - 1 < -1) := by
  constructor
  · with_unfolding_all rfl
  · norm_num

theorem claim_C6_witness :
    ((0 : ℚ) - 1, (⟨0, 0⟩ : Point)).1 ≤ 0 ∧
    ((0 : ℚ), (⟨0, 0⟩ : Point)).1 = 0 := by
  have hrun : processNeighbours (mkCtx cwPred zf zf 1 2) 0 ⟨0, 0⟩ offsets cwD [] =
      .ok (updateD cwD ⟨0 + 1, 0 + 0⟩ ((mkCtx cwPred zf zf 1 2).pred cwD (0 + 1) (0 + 0)),
        [((0 : ℚ) - 1, ⟨0, 0⟩)]) := by
    with_unfolding_all rfl
  have h := claim_C6_amended cwPred zf zf 1 2 cwD 0 ⟨0, 0⟩ offsets cwD [] _ _
    (by intro e he; simp at he) le_rfl hrun
  have hinit : ((0 : ℚ), (⟨0, 0⟩ : Point)) ∈ initBand 1 2 cwD := by
    with_unfolding_all decide
  exact ⟨h.2.2 _ (List.mem_cons_self _ _), h.1 _ hinit⟩

theorem claim_C9_witness :
    InPaintBase (fun _ _ _ => 0) zf zf ⟨2, 2, 1, fun _ _ => 1⟩
      ⟨2, 3, 3, fun _ _ _ => 0⟩ = .err sameSizeMsg ∧
    InPaintBase (fun _ _ _ => 0) zf zf ⟨2, 2, 2, fun _ _ => 1⟩
      ⟨2, 2, 3, fun _ _ _ => 0⟩ = .err depthChannelsMsg ∧
    InPaintBase (fun _ _ _ => 0) zf zf ⟨2, 2, 1, fun _ _ => 1⟩
      ⟨2, 2, 4, fun _ _ _ => 0⟩ = .err rgbChannelsMsg :=
  ⟨(claim_C9_amended _ zf zf _ _).1 (Or.inl (by norm_num)),
   (claim_C9_amended _ zf zf _ _).2.1 rfl rfl (by norm_num),
   (claim_C9_amended _ zf zf _ _).2.2.1 rfl rfl rfl (by norm_num)⟩

theorem claim_C7_witness :
    3 < pd2NumKnown gW 2 2 (fun _ _ => 5) 0 0 ∧
    pd2sX gW 2 2 (fun _ _ => 5) (fun _ _ _ => 0) 0 0 id 3 = 1 ∧
    pd2Test gW 2 2 (fun _ _ => 5) (fun _ _ _ => 0) 0 0 7 id 3 =
      max ((1 : ℚ)/100000) 7 := by
  have h4 : 3 < pd2NumKnown gW 2 2 (fun _ _ => 5) 0 0 := by
    with_unfolding_all decide
  have h := claim_C7_amended gW 2 2 (fun _ _ => 5) (fun _ _ _ => 0) 0 0 7 id h4
  exact ⟨h4, h.1, h.2.2⟩

/-- A 2×2 fully known depth image with values 1, 2, 3, 4. -/
def wD : Int → Int → ℚ := fun yy xx =>
  if yy = 0 ∧ xx = 0 then 1
  else if yy = 0 ∧ xx = 1 then 2
  else if yy = 1 ∧ xx = 0 then 3
  else if yy = 1 ∧ xx = 1 then 4
  else 0

/-- Read a pixel of a successful inpaint result. -/
def resAt (r : Res) (yy xx : Int) : Option ℕ :=
  match r with
  | .ok f => some (f yy xx)
  | _ => none

/-- A 1×1 depth image whose single pixel is known with value 5. -/
def dW1 : DepthInput := ⟨1, 1, 1, fun _ _ => 5⟩

/-- A 1×1 RGB image. -/
def rgbW1 : RgbInput := ⟨1, 1, 3, fun _ _ _ => 0⟩

theorem claim_C2_witness :
    resAt (gW.InPaint zf zf dW1 rgbW1) 0 0 = some (dW1.data 0 0) := by
  have hrun : gW.InPaint zf zf dW1 rgbW1 =
      .ok (fun yy xx => toU16 (initDepth dW1 yy xx)) := by
    with_unfolding_all rfl
  have h := (claim_C2 gW zf zf dW1 rgbW1 rfl rfl rfl rfl 0 0
    (by decide) (by decide)).2 _ hrun
  rw [hrun]
  simp only [resAt, Option.some.injEq]
  exact h

/-- The 1×2 depth input of the C1 counterexample: one known pixel, the other
unknown and 4-adjacent to it. -/
def cxD : DepthInput := ⟨1, 2, 1, fun yy xx => if yy = 0 ∧ xx = 0 then 100 else 0⟩

/-- The matching 1×2 RGB input. -/
def cxRgb : RgbInput := ⟨1, 2, 3, fun _ _ _ => 0⟩

/-- C1 (counterexample) — A well-shaped 1×2 input with one known pixel whose
single unknown pixel is 4-adjacent to it satisfies all hypotheses of the
claim, yet `inpaint` raises the "Too few known values…" error instead of
returning a fully known image: the bilateral window around the unknown pixel
never holds 4 known pixels, the seed is re-deferred until its priority drops
below −20, and the run aborts. -/
theorem claim_C1_counterexample :
    gW.InPaint zf zf cxD cxRgb = .err tooFewMsg ∧
    (∃ p : Point, insideP cxD.rows cxD.cols p ∧ cxD.data p.y p.x ≠ 0) ∧
    (∀ p : Point, insideP cxD.rows cxD.cols p → initDepth cxD p.y p.x = 0 →
      Reaches cxD.rows cxD.cols (initDepth cxD) p) := by
  refine ⟨by with_unfolding_all rfl, ⟨⟨0, 0⟩, by decide, by decide⟩, ?_⟩
  intro p hin hz
  have hx : p.x = 0 ∨ p.x = 1 := by
    unfold insideP at hin
    simp only [cxD] at hin
    omega
  have hy : p.y = 0 := by
    unfold insideP at hin
    simp only [cxD] at hin
    omega
  rcases hx with hx | hx
  · exfalso
    unfold initDepth at hz
    rw [hy, hx] at hz
    simp only [cxD] at hz
    norm_num at hz
  · have hp : p = ⟨1, 0⟩ := by
      cases p
      simp only [Point.mk.injEq]
      exact ⟨hx, hy⟩
    rw [hp]
    have hseed : Reaches cxD.rows cxD.cols (initDepth cxD) ⟨0, 0⟩ := by
      refine Reaches.seed ⟨0, 0⟩ (by decide) ?_
      unfold initDepth
      simp only [cxD]
      norm_num
    have hstep := Reaches.step ⟨0, 0⟩ ⟨1, 0⟩ hseed (by decide) (by decide)
    exact hstep

theorem claim_C1_witness :
    gW.InPaint zf zf dW1 rgbW1 ≠ .fuelEmpty ∧
    resAt (gW.InPaint zf zf dW1 rgbW1) 0 0 ≠ some 0 := by
  have hreach : ∀ p : Point, insideP dW1.rows dW1.cols p →
      initDepth dW1 p.y p.x = 0 → Reaches dW1.rows dW1.cols (initDepth dW1) p := by
    intro p _ hz
    exfalso
    unfold initDepth at hz
    simp only [dW1] at hz
    norm_num at hz
  have h := claim_C1_amended gW zf zf dW1 rgbW1 rfl rfl rfl rfl
    ⟨⟨0, 0⟩, by decide, by decide⟩ hreach
  refine ⟨h.1, ?_⟩
  have hrun : gW.InPaint zf zf dW1 rgbW1 =
      .ok (fun yy xx => toU16 (initDepth dW1 yy xx)) := by
    with_unfolding_all rfl
  have h3 := h.2.2 _ hrun ⟨0, 0⟩ (by decide)
  rw [hrun]
  simp only [resAt]
  intro hc
  exact h3 (Option.some.inj hc)

theorem claim_C10_witness :
    4 ≤ (knownCoords 2 2 wD 0 0 (gW.windowSize / 2)).length ∧
    (0 : ℚ) < ((knownCoords 2 2 wD 0 0 (gW.windowSize / 2)).map
      (flooredWeight gW (fun _ _ _ => 0) 0 0)).sum ∧
    gW.PredictDepth 2 2 wD (fun _ _ _ => 0) 0 0 ≤ 4 ∧
    (1 : ℚ) ≤ gW.PredictDepth 2 2 wD (fun _ _ _ => 0) 0 0 := by
  have h4 : 4 ≤ (knownCoords 2 2 wD 0 0 (gW.windowSize / 2)).length := by
    with_unfolding_all decide
  have h := claim_C10 gW 2 2 wD (fun _ _ _ => 0) 0 0 h4
  refine ⟨h4, h.2.1, h.2.2.2.1 4 ?_, h.2.2.2.2 1 ?_⟩
  · intro mn hmn
    have hlist : knownCoords 2 2 wD 0 0 (gW.windowSize / 2) =
        [(0, 0), (1, 0), (0, 1), (1, 1)] := by with_unfolding_all decide
    rw [hlist] at hmn
    simp only [List.mem_cons, List.not_mem_nil, or_false] at hmn
    rcases hmn with h | h | h | h <;> (rw [h]; with_unfolding_all decide)
  · intro mn hmn
    have hlist : knownCoords 2 2 wD 0 0 (gW.windowSize / 2) =
        [(0, 0), (1, 0), (0, 1), (1, 1)] := by with_unfolding_all decide
    rw [hlist] at hmn
    simp only [List.mem_cons, List.not_mem_nil, or_false] at hmn
    rcases hmn with h | h | h | h <;> (rw [h]; with_unfolding_all decide)

end gdfmm
